import Mathlib

/-!
# Wrist compass (`src/c/compass.c`): fixed-point primitives, colour ramp and needle rasterizer

Shallow embedding of the arithmetic and drawing code of the watch app.

* C `int32_t` values are integers (`Int`); `>>` on a signed value is the arithmetic
  shift, `Int.shiftRight` (floor division by a power of two).  The functions ending in
  `32` redo the same computation with every arithmetic result wrapped to 32 bits, so
  that "no overflow" can be stated and proved.
* C `uint32_t` values are naturals reduced modulo `2 ^ 32`; C `uint8_t` values are
  naturals reduced modulo `2 ^ 8`.
* The per-pixel arithmetic of `needle_update_proc` (`rx`, `ry`, `ld`) is over unbounded
  integers: it is the `int32_t` arithmetic of the source as long as that does not
  overflow, which `diamond_ld32_eq` shows for the pixels of a Pebble display.
* Names of the Pebble SDK that the sources use but do not define (`TRIG_MAX_RATIO`,
  the `GColor...ARGB8` bytes, `GColorFromHEX`, `sin_lookup`, `cos_lookup`) are
  parameters of the definitions that need them.
-/

namespace Compass

/-! ## Machine integers -/

/-- Two's-complement reduction of an integer to the range of `int32_t`. -/
def wrap32 (x : Int) : Int := (x + 2147483648) % 4294967296 - 2147483648

/-- The integer is representable as an `int32_t`. -/
def fits32 (x : Int) : Prop := -2147483648 ≤ x ∧ x ≤ 2147483647

instance (x : Int) : Decidable (fits32 x) := by unfold fits32; infer_instance

/-! ## `ratio_mul` (compass.c, lines 63-85) -/

/-- Lines 68-71 (and 72-75): `if (v < 0) v -= 1; if (v > 0) v += 1;`. -/
def nudge (v : Int) : Int :=
  let v := if v < 0 then v - 1 else v
  let v := if v > 0 then v + 1 else v
  v

/-- Lines 78-81: `if (x < 0) x += (1 << 13); if (x > 0) x -= (1 << 13);`.
The two tests run one after the other, on the updated value. -/
def adjust (x : Int) : Int :=
  let x := if x < 0 then x + 8192 else x
  let x := if x > 0 then x - 8192 else x
  x

/-- The function `ratio_mul` of compass.c over unbounded integers. -/
def ratio_mul (a b : Int) : Int :=
  let a := nudge a
  let b := nudge b
  let x := (a >>> (1 : Nat)) * (b >>> (1 : Nat))
  let x := adjust x
  x >>> (14 : Nat)

/-- The operand nudge with each result wrapped to 32 bits. -/
def nudge32 (v : Int) : Int :=
  let v := if v < 0 then wrap32 (v - 1) else v
  let v := if v > 0 then wrap32 (v + 1) else v
  v

/-- The product adjustment with each result wrapped to 32 bits. -/
def adjust32 (x : Int) : Int :=
  let x := if x < 0 then wrap32 (x + 8192) else x
  let x := if x > 0 then wrap32 (x - 8192) else x
  x

/-- The function `ratio_mul` with `int32_t` arithmetic: every sum, difference and product
is wrapped to 32 bits. -/
def ratio_mul32 (a b : Int) : Int :=
  let a := nudge32 a
  let b := nudge32 b
  let x := wrap32 ((a >>> (1 : Nat)) * (b >>> (1 : Nat)))
  let x := adjust32 x
  x >>> (14 : Nat)

/-! ## `blend` (compass.c, lines 87-114) -/

/-- Conversion of an integer to `uint32_t` (reduction modulo `2 ^ 32`). -/
def u32 (z : Int) : Nat := (z % 4294967296).toNat

/-- Red channel of a packed ARGB8 byte: `(c & 0x30) >> 4` (lines 91 and 94). -/
def chan_r (c : Nat) : Nat := (c &&& 0x30) >>> 4

/-- Green channel of a packed ARGB8 byte: `(c & 0x0C) >> 2` (lines 92 and 95). -/
def chan_g (c : Nat) : Nat := (c &&& 0x0C) >>> 2

/-- Blue channel of a packed ARGB8 byte: `c & 0x03` (lines 93 and 96). -/
def chan_b (c : Nat) : Nat := c &&& 0x03

/-- One channel of `blend`: `x = ch1 * alpha + ch0 * beta + (1 << 15); x >>= 16;` in
`uint32_t` arithmetic (lines 101-102, 105-106, 109-110). -/
def blend_channel (alpha : Int) (ch0 ch1 : Nat) : Nat :=
  let beta : Nat := u32 (65536 - alpha)
  let x : Nat := (ch1 * u32 alpha + ch0 * beta + 32768) % 4294967296
  x >>> 16

/-- The function `blend` of compass.c: `alpha` is an `int32_t`, the colours are `uint8_t`
and so is the accumulator `c`, which is truncated to 8 bits after each update. -/
def blend (alpha : Int) (c0 c1 : Nat) : Nat :=
  let c : Nat := 3
  let c := (c <<< 2) % 256
  let c := (c ||| blend_channel alpha (chan_r c0) (chan_r c1)) % 256
  let c := (c <<< 2) % 256
  let c := (c ||| blend_channel alpha (chan_g c0) (chan_g c1)) % 256
  let c := (c <<< 2) % 256
  let c := (c ||| blend_channel alpha (chan_b c0) (chan_b c1)) % 256
  c

/-- The interpolation formula of the specification for one channel:
`floor((ch1 * alpha + ch0 * (65536 - alpha) + 32768) / 65536)`, in exact integers. -/
def lerp_spec (alpha : Int) (ch0 ch1 : Nat) : Int :=
  ((ch1 : Int) * alpha + (ch0 : Int) * (65536 - alpha) + 32768) / 65536

/-! ## `charge_colors` and `get_charging_color` (compass.c, lines 51-61 and 121-136) -/

/-- The `struct color_map` of compass.h. -/
structure color_map where
  key : Int
  color : Int
deriving DecidableEq, Repr

/-- The table `charge_colors`. -/
def charge_colors : List color_map :=
  [ ⟨100, 0x00FF55⟩,
    ⟨90, 0x00FF00⟩,
    ⟨80, 0x55FF00⟩,
    ⟨70, 0xAAFF00⟩,
    ⟨50, 0xFFFF00⟩,
    ⟨30, 0xFFAA00⟩,
    ⟨20, 0xFF5500⟩,
    ⟨0, 0xFF0000⟩,
    ⟨-1, 0xFFFFFF⟩ ]

/-- The `do ... while` loop of `get_charging_color`.  The pointer `cm` is the list of the
entries from `cm` on: the body converts the colour of `*cm` and advances `cm`, the loop test
reads the key of the new `*cm`.  Reading an entry past the end of the table gives `none`. -/
def charging_walk {γ : Type} (GColorFromHEX : Int → γ) (percent : Int) :
    List color_map → Option γ
  | e :: nxt :: rest =>
    if percent ≤ nxt.key then charging_walk GColorFromHEX percent (nxt :: rest)
    else some (GColorFromHEX e.color)
  | _ => none

/-- The function `get_charging_color` of compass.c; the SDK conversion `GColorFromHEX` is
a parameter. -/
def get_charging_color {γ : Type} (GColorFromHEX : Int → γ) (percent : Int) : Option γ :=
  let percent := if percent < 0 then 0 else percent
  charging_walk GColorFromHEX percent charge_colors

/-- The selection rule as the claim words it: the last entry, in table order, whose key
is at least `p`. -/
def last_key_ge_spec (tbl : List color_map) (p : Int) : Option color_map :=
  (tbl.filter (fun e => decide (p ≤ e.key))).getLast?

/-- The colour (still as a hex number) that the claim's rule selects: that of the last
entry whose key is at least `p`, and that of the first entry when no key is. -/
def ramp_rule_spec (tbl : List color_map) (p : Int) : Option Int :=
  match last_key_ge_spec tbl p with
  | some e => some e.color
  | none => tbl.head?.map (fun e => e.color)

/-- The better of two candidate entries for "the largest threshold": the one with the
greater key, the earlier one on a tie. -/
def pick_larger (best : Option color_map) (e : color_map) : Option color_map :=
  match best with
  | none => some e
  | some b => if b.key < e.key then some e else some b

/-- The better of two candidate entries for "the smallest threshold": the one with the
smaller key, the earlier one on a tie. -/
def pick_smaller (best : Option color_map) (e : color_map) : Option color_map :=
  match best with
  | none => some e
  | some b => if e.key < b.key then some e else some b

/-- The rule "round down to the nearest bucket" as the specification words it: among the
entries whose threshold is at most `p`, the one with the largest threshold. -/
def largest_key_le_spec (tbl : List color_map) (p : Int) : Option color_map :=
  (tbl.filter (fun e => decide (e.key ≤ p))).foldl pick_larger none

/-- The rule "round up to the nearest bucket": among the entries whose threshold is at
least `p`, the one with the smallest threshold. -/
def smallest_key_ge_spec (tbl : List color_map) (p : Int) : Option color_map :=
  (tbl.filter (fun e => decide (p ≤ e.key))).foldl pick_smaller none

/-- The `do ... while` loop of `get_charging_color` with the position of `cm` in the
table: `i` is the index of the first entry of the list.  The body reads entry `i`, the loop
test reads entry `i + 1`; the result is the converted colour and the index of the last
entry read.  Reading an entry past the end of the table gives `none`. -/
def charging_walk_index {γ : Type} (GColorFromHEX : Int → γ) (percent : Int) :
    List color_map → Nat → Option (γ × Nat)
  | e :: nxt :: rest, i =>
    if percent ≤ nxt.key then charging_walk_index GColorFromHEX percent (nxt :: rest) (i + 1)
    else some (GColorFromHEX e.color, i + 1)
  | _, _ => none

/-- The function `get_charging_color` with the index of the last table entry it reads. -/
def get_charging_color_index {γ : Type} (GColorFromHEX : Int → γ) (percent : Int) :
    Option (γ × Nat) :=
  let percent := if percent < 0 then 0 else percent
  charging_walk_index GColorFromHEX percent charge_colors 0

/-! ## `needle_update_proc` (compass.c, lines 257-357) -/

/-- Needle half width (line 24). -/
def A : Int := 12

/-- Needle half length (line 25). -/
def B : Int := 48

/-- The constant `L` (line 28). -/
def L : Int := 3242542

/-- The constant `RL` (line 29). -/
def RL : Int := 1325

/-- The local constant `r = (A * B) << 16` (line 263). -/
def r : Int := (A * B) * 65536

/-- What the sources take from the Pebble SDK. -/
structure Sdk where
  TRIG_MAX_RATIO : Int
  GColorWhiteARGB8 : Nat
  GColorBlueMoonARGB8 : Nat
  GColorOrangeARGB8 : Nat
  sin_lookup : Int → Int
  cos_lookup : Int → Int
  TRIGANGLE_TO_DEG : Int → Int

/-- The macro `ARROW_COLOR_N` (line 21). -/
def ARROW_COLOR_N (sdk : Sdk) : Nat := sdk.GColorBlueMoonARGB8

/-- The macro `ARROW_COLOR_S` (line 22). -/
def ARROW_COLOR_S (sdk : Sdk) : Nat := sdk.GColorOrangeARGB8

/-- The paths through the body of the inner loop (lines 284-347). -/
inductive Branch where
  | outside      -- line 295: `ld > L * 2`, `continue`
  | rim_solid    -- lines 299-301: `ld >= 0`, `ld < L`
  | rim_fade     -- lines 302-305: `ld >= 0`, `ld >= L`
  | seam_n       -- lines 313-318
  | seam_s       -- lines 319-324
  | seam_white   -- lines 325-326
  | fill_n       -- lines 330-337
  | fill_s       -- lines 340-347
  | unwritten    -- none of the tests holds, the body ends without a store
deriving DecidableEq, Repr

/-- The value `ld` of line 292 for the pixel at offset `(dx, dy)` from the centre. -/
def diamond_ld (sx sy dx dy : Int) : Int :=
  let rx := dx * sx + dy * sy
  let ry := dy * sx - dx * sy
  abs rx * B + abs ry * A - r

/-- The body of the inner loop for one pixel (lines 284-347): the path taken and the byte
stored in `info.data[x]`, if any; `old` is the byte found there.  The two last tests
(`ry < 0`, `ry > 0`) exclude each other and the first block leaves `ry` alone, so they are
written as a chain. -/
def needle_pixel (sdk : Sdk) (sx sy dx dy : Int) (old : Nat) : Branch × Option Nat :=
  let rx := dx * sx + dy * sy
  let ry := dy * sx - dx * sy
  let ld := abs rx * B + abs ry * A - r
  if ld > L * 2 then (Branch.outside, none)
  else if ld ≥ 0 then
    if ld < L then (Branch.rim_solid, some sdk.GColorWhiteARGB8)
    else (Branch.rim_fade, some (blend (ratio_mul (ld - L) RL) sdk.GColorWhiteARGB8 old))
  else if abs ry < 2 * sdk.TRIG_MAX_RATIO then
    if ry + sdk.TRIG_MAX_RATIO < 0 then
      (Branch.seam_n,
        some (blend (abs ry - sdk.TRIG_MAX_RATIO) sdk.GColorWhiteARGB8 (ARROW_COLOR_N sdk)))
    else if ry - sdk.TRIG_MAX_RATIO > 0 then
      (Branch.seam_s,
        some (blend (abs ry - sdk.TRIG_MAX_RATIO) sdk.GColorWhiteARGB8 (ARROW_COLOR_S sdk)))
    else (Branch.seam_white, some sdk.GColorWhiteARGB8)
  else if ry < 0 then
    (Branch.fill_n,
      some (if ld + L > 0 then blend (ratio_mul (L + ld) RL) (ARROW_COLOR_N sdk)
              sdk.GColorWhiteARGB8
            else ARROW_COLOR_N sdk))
  else if ry > 0 then
    (Branch.fill_s,
      some (if ld + L > 0 then blend (ratio_mul (L + ld) RL) (ARROW_COLOR_S sdk)
              sdk.GColorWhiteARGB8
            else ARROW_COLOR_S sdk))
  else (Branch.unwritten, none)

/-- The byte in `info.data[x]` after the loop body has run for the pixel: the stored byte,
or the old one when the body stores nothing. -/
def pixel_result (sdk : Sdk) (sx sy dx dy : Int) (old : Nat) : Nat :=
  (needle_pixel sdk sx sy dx dy old).2.getD old

/-- The frame buffer as `gbitmap_get_data_row_info` shows it: for each row `y` the first
and last valid column and the bytes `info.data[x]`. -/
structure GBitmap where
  min_x : Int → Int
  max_x : Int → Int
  data : Int → Int → Nat

/-- The store `info.data[x] = c` in row `y`. -/
def GBitmap.store (fb : GBitmap) (y x : Int) (c : Nat) : GBitmap :=
  { fb with data := fun y1 x1 => if y1 = y ∧ x1 = x then c else fb.data y1 x1 }

/-- The values `lo, lo + 1, ..., hi` of a loop `for (i = lo; i <= hi; i += 1)`. -/
def loop_range (lo hi : Int) : List Int :=
  (List.range (hi + 1 - lo).toNat).map (fun (i : Nat) => lo + (i : Int))

/-- One pass of the inner loop body on the frame buffer, at column `x` of row `y`. -/
def needle_step (sdk : Sdk) (cx cy sx sy y : Int) (fb : GBitmap) (x : Int) : GBitmap :=
  match (needle_pixel sdk sx sy (x - cx) (y - cy) (fb.data y x)).2 with
  | some c => fb.store y x c
  | none => fb

/-- The inner loop (lines 280-348) for row `y`. -/
def needle_row (sdk : Sdk) (cx cy sx sy : Int) (fb : GBitmap) (y : Int) : GBitmap :=
  (loop_range (fb.min_x y) (fb.max_x y)).foldl (needle_step sdk cx cy sx sy y) fb

/-- The outer loop (lines 278-349) over the rows `center.y - 56 .. center.y + 56`. -/
def needle_rows (sdk : Sdk) (cx cy sx sy : Int) (fb : GBitmap) : GBitmap :=
  (loop_range (cy - 56) (cy + 56)).foldl (needle_row sdk cx cy sx sy) fb

/-- The Pebble type `CompassStatus`. -/
inductive CompassStatus where
  | DataInvalid
  | Calibrating
  | Calibrated
deriving DecidableEq, Repr

/-- The fields of `CompassHeadingData` that the program reads. -/
structure CompassHeadingData where
  magnetic_heading : Int
  compass_status : CompassStatus

/-- The state that `needle_update_proc` reads and writes: the frame buffer of the
graphics context, whether it is currently captured, the globals `g_heading` and
`g_degrees`, and whether the digits layer has been marked dirty. -/
structure World where
  fb : GBitmap
  captured : Bool
  g_heading : CompassHeadingData
  g_degrees : Int
  digits_dirty : Bool

/-- The function `needle_update_proc` of compass.c; `(cx, cy)` is the centre of the layer
bounds. -/
def needle_update_proc (sdk : Sdk) (cx cy : Int) (w : World) : World :=
  -- line 260: graphics_capture_frame_buffer
  let w := { w with captured := true }
  let needle_angle := w.g_heading.magnetic_heading
  -- lines 271-272
  if w.g_heading.compass_status = CompassStatus.DataInvalid then w
  else
    let sy := sdk.sin_lookup needle_angle
    let sx := sdk.cos_lookup needle_angle
    let w := { w with fb := needle_rows sdk cx cy sx sy w.fb }
    -- line 350: graphics_release_frame_buffer
    let w := { w with captured := false }
    -- lines 352-356
    let deg := sdk.TRIGANGLE_TO_DEG needle_angle
    if deg ≠ w.g_degrees then { w with g_degrees := deg, digits_dirty := true } else w

/-- Every intermediate value of the call `ratio_mul(a, b)` fits in a signed 32-bit
integer: the nudged operands, the product of their halves, the product after the first
and after the second adjustment step, and the result; and the computation in wrapping
`int32_t` arithmetic gives the same result. -/
def ratio_mul_fits (a b : Int) : Prop :=
  fits32 (nudge a) ∧ fits32 (nudge b) ∧
    fits32 ((nudge a >>> (1 : Nat)) * (nudge b >>> (1 : Nat))) ∧
    fits32 (if (nudge a >>> (1 : Nat)) * (nudge b >>> (1 : Nat)) < 0
      then (nudge a >>> (1 : Nat)) * (nudge b >>> (1 : Nat)) + 8192
      else (nudge a >>> (1 : Nat)) * (nudge b >>> (1 : Nat))) ∧
    fits32 (adjust ((nudge a >>> (1 : Nat)) * (nudge b >>> (1 : Nat)))) ∧
    fits32 (ratio_mul a b) ∧
    ratio_mul32 a b = ratio_mul a b

/-- The value `ld` of line 292 in `int32_t` arithmetic: every product, sum, difference
and `abs` of lines 288-292 is wrapped to 32 bits. -/
def diamond_ld32 (sx sy dx dy : Int) : Int :=
  let rx := wrap32 (wrap32 (dx * sx) + wrap32 (dy * sy))
  let ry := wrap32 (wrap32 (dy * sx) - wrap32 (dx * sy))
  wrap32 (wrap32 (wrap32 (wrap32 (abs rx) * B) + wrap32 (wrap32 (abs ry) * A)) - r)

/-! ## Concrete inputs for the evaluations -/

/-- SDK parameters for concrete evaluations: the values of `TRIG_MAX_RATIO` and of the
three colour bytes in the Pebble SDK, a degree conversion, and lookups that return the
sine `0` and the cosine `65536` that the specification gives for a heading of 0. -/
def sample_sdk : Sdk :=
  { TRIG_MAX_RATIO := 0xFFFF
    GColorWhiteARGB8 := 0xFF
    GColorBlueMoonARGB8 := 0xC7
    GColorOrangeARGB8 := 0xF8
    sin_lookup := fun _ => 0
    cos_lookup := fun _ => 65536
    TRIGANGLE_TO_DEG := fun angle => angle * 360 / 65536 }

/-- A frame buffer of 144 columns per row, every byte `0xC0` (opaque black). -/
def sample_fb : GBitmap :=
  { min_x := fun _ => 0
    max_x := fun _ => 143
    data := fun _ _ => 0xC0 }

/-- A state with the sample frame buffer, not captured, and a calibrated heading of 0. -/
def sample_world : World :=
  { fb := sample_fb
    captured := false
    g_heading := ⟨0, CompassStatus.Calibrated⟩
    g_degrees := -1
    digits_dirty := false }

/-! ## Facts about `ratio_mul` -/

theorem sar_one (x : Int) : x >>> (1 : Nat) = x / 2 := by
  rw [Int.shiftRight_eq_div_pow]; norm_num

theorem sar_fourteen (x : Int) : x >>> (14 : Nat) = x / 16384 := by
  rw [Int.shiftRight_eq_div_pow]; norm_num

theorem wrap32_of_fits {x : Int} (h : fits32 x) : wrap32 x = x := by
  unfold fits32 at h
  unfold wrap32
  omega

theorem nudge_eq (v : Int) : nudge v = if v < 0 then v - 1 else if v > 0 then v + 1 else v := by
  unfold nudge
  dsimp only
  split_ifs <;> omega

theorem nudge32_eq (v : Int) (h : -2147483647 ≤ v ∧ v ≤ 2147483646) : nudge32 v = nudge v := by
  unfold nudge32 nudge wrap32
  dsimp only
  split_ifs <;> omega

theorem adjust32_eq (x : Int) (h : fits32 x) : adjust32 x = adjust x := by
  unfold fits32 at h
  unfold adjust32 adjust wrap32
  dsimp only
  split_ifs <;> omega

/-- Half of a nudged operand of the domain lies in `[-32769, 32768]`. -/
theorem half_nudge_bounds (v : Int) (h : -65536 ≤ v ∧ v ≤ 65536) :
    -32769 ≤ nudge v >>> (1 : Nat) ∧ nudge v >>> (1 : Nat) ≤ 32768 := by
  rw [sar_one, nudge_eq]
  split_ifs <;> omega

/-- A product of two integers of absolute value at most `32769` is at most `32769 ^ 2`
in absolute value. -/
theorem mul_bounds (u v : Int) (hu : -32769 ≤ u ∧ u ≤ 32769) (hv : -32769 ≤ v ∧ v ≤ 32769) :
    -1073807361 ≤ u * v ∧ u * v ≤ 1073807361 := by
  have h1 : |u| ≤ 32769 := abs_le.mpr hu
  have h2 : |v| ≤ 32769 := abs_le.mpr hv
  have h3 : |u * v| ≤ 32769 * 32769 := by
    rw [abs_mul]
    exact mul_le_mul h1 h2 (abs_nonneg v) (by norm_num)
  have h4 := abs_le.mp h3
  constructor <;> linarith [h4.1, h4.2]

theorem ratio_mul_product_fits (a b : Int) (ha : -65536 ≤ a ∧ a ≤ 65536)
    (hb : -65536 ≤ b ∧ b ≤ 65536) :
    -1073807361 ≤ (nudge a >>> (1 : Nat)) * (nudge b >>> (1 : Nat)) ∧
      (nudge a >>> (1 : Nat)) * (nudge b >>> (1 : Nat)) ≤ 1073807361 := by
  have h1 := half_nudge_bounds a ha
  have h2 := half_nudge_bounds b hb
  exact mul_bounds _ _ ⟨h1.1, by omega⟩ ⟨h2.1, by omega⟩

theorem ratio_mul32_eq (a b : Int) (ha : -65536 ≤ a ∧ a ≤ 65536)
    (hb : -65536 ≤ b ∧ b ≤ 65536) : ratio_mul32 a b = ratio_mul a b := by
  have hp := ratio_mul_product_fits a b ha hb
  have hf : fits32 ((nudge a >>> (1 : Nat)) * (nudge b >>> (1 : Nat))) :=
    ⟨by omega, by omega⟩
  unfold ratio_mul32 ratio_mul
  simp only []
  rw [nudge32_eq a (by omega), nudge32_eq b (by omega), wrap32_of_fits hf, adjust32_eq _ hf]

theorem adjust_bounds (x : Int) (h : -1073807361 ≤ x ∧ x ≤ 1073807361) :
    -1073807361 ≤ adjust x ∧ adjust x ≤ 1073807361 := by
  unfold adjust
  dsimp only
  split_ifs <;> omega

theorem half_nudge_nonneg (v : Int) (h : 0 ≤ v) : nudge v >>> (1 : Nat) = (v + 1) / 2 := by
  rw [sar_one, nudge_eq]
  split_ifs <;> omega

/-- Four times the product of the rounded-up halves exceeds the exact product by at most
`131071`. -/
theorem half_product_bounds (a b u v : Int) (ha : 0 ≤ a ∧ a ≤ 65536) (hb : 0 ≤ b ∧ b ≤ 65536)
    (hu : u = (a + 1) / 2) (hv : v = (b + 1) / 2) :
    a * b ≤ 4 * (u * v) ∧ 4 * (u * v) ≤ a * b + 131071 := by
  rcases (by omega : a = 2 * u ∨ a = 2 * u - 1) with h | h <;>
    rcases (by omega : b = 2 * v ∨ b = 2 * v - 1) with h1 | h1
  · have e : a * b = 4 * (u * v) := by rw [h, h1]; ring
    omega
  · have e : a * b = 4 * (u * v) - 2 * u := by rw [h, h1]; ring
    omega
  · have e : a * b = 4 * (u * v) - 2 * v := by rw [h, h1]; ring
    omega
  · have e : a * b = 4 * (u * v) - 2 * u - 2 * v + 1 := by rw [h, h1]; ring
    omega

/-- On non-negative operands of the domain `ratio_mul` is within one unit of every
integer nearest to `a * b / 65536`. -/
theorem ratio_mul_nonneg_near (a b n : Int) (ha : 0 ≤ a ∧ a ≤ 65536)
    (hb : 0 ≤ b ∧ b ≤ 65536) (hn : |65536 * n - a * b| ≤ 32768) :
    |ratio_mul a b - n| ≤ 1 := by
  have hn1 := abs_le.mp hn
  have key := half_product_bounds a b _ _ ha hb rfl rfl
  have hx0 : 0 ≤ ((a + 1) / 2) * ((b + 1) / 2) :=
    mul_nonneg (by omega) (by omega)
  have hp0 : 0 ≤ a * b := mul_nonneg ha.1 hb.1
  unfold ratio_mul
  dsimp only
  rw [half_nudge_nonneg a ha.1, half_nudge_nonneg b hb.1, sar_fourteen]
  generalize ((a + 1) / 2) * ((b + 1) / 2) = x at *
  generalize a * b = p at *
  rw [abs_le]
  unfold adjust
  dsimp only
  split_ifs <;> constructor <;> omega

/-! ## Facts about `blend` -/

theorem chan_r_le (c : Nat) : chan_r c ≤ 3 := by
  unfold chan_r
  rw [Nat.shiftRight_eq_div_pow]
  have h : c &&& 0x30 ≤ 0x30 := Nat.and_le_right
  omega

theorem chan_g_le (c : Nat) : chan_g c ≤ 3 := by
  unfold chan_g
  rw [Nat.shiftRight_eq_div_pow]
  have h : c &&& 0x0C ≤ 0x0C := Nat.and_le_right
  omega

theorem chan_b_le (c : Nat) : chan_b c ≤ 3 := by
  unfold chan_b
  exact Nat.and_le_right

theorem u32_of_nat (a : Nat) (h : a ≤ 65536) : u32 (a : Int) = a := by
  unfold u32
  omega

theorem u32_beta (a : Nat) (h : a ≤ 65536) : u32 (65536 - (a : Int)) = 65536 - a := by
  unfold u32
  omega

/-- For `alpha` in `[0, 65536]` the `uint32_t` computation of a channel does not wrap. -/
theorem blend_channel_nat (a ch0 ch1 : Nat) (ha : a ≤ 65536) (h0 : ch0 ≤ 3) (h1 : ch1 ≤ 3) :
    blend_channel (a : Int) ch0 ch1 = (ch1 * a + ch0 * (65536 - a) + 32768) / 65536 := by
  unfold blend_channel
  dsimp only
  rw [u32_of_nat a ha, u32_beta a ha, Nat.shiftRight_eq_div_pow]
  interval_cases ch0 <;> interval_cases ch1 <;> omega

theorem blend_channel_lerp (alpha : Int) (ch0 ch1 : Nat) (hl : 0 ≤ alpha)
    (hu : alpha ≤ 65536) (h0 : ch0 ≤ 3) (h1 : ch1 ≤ 3) :
    (blend_channel alpha ch0 ch1 : Int) = lerp_spec alpha ch0 ch1 ∧
      blend_channel alpha ch0 ch1 ≤ 3 := by
  obtain ⟨a, rfl⟩ := Int.eq_ofNat_of_zero_le hl
  rw [blend_channel_nat a ch0 ch1 (by omega) h0 h1]
  unfold lerp_spec
  interval_cases ch0 <;> interval_cases ch1 <;> constructor <;> push_cast <;> omega

theorem blend_channel_toNat (alpha : Int) (ch0 ch1 : Nat) (hl : 0 ≤ alpha)
    (hu : alpha ≤ 65536) (h0 : ch0 ≤ 3) (h1 : ch1 ≤ 3) :
    blend_channel alpha ch0 ch1 = (lerp_spec alpha ch0 ch1).toNat := by
  have h := (blend_channel_lerp alpha ch0 ch1 hl hu h0 h1).1
  omega

/-- The channel value does not decrease with `alpha` when the second colour has the
larger channel, and does not increase otherwise. -/
theorem blend_channel_mono (a1 a2 : Int) (ch0 ch1 : Nat) (hl : 0 ≤ a1) (h12 : a1 ≤ a2)
    (hu : a2 ≤ 65536) (h0 : ch0 ≤ 3) (h1 : ch1 ≤ 3) :
    (ch0 ≤ ch1 → blend_channel a1 ch0 ch1 ≤ blend_channel a2 ch0 ch1) ∧
      (ch1 < ch0 → blend_channel a2 ch0 ch1 ≤ blend_channel a1 ch0 ch1) := by
  obtain ⟨n1, rfl⟩ := Int.eq_ofNat_of_zero_le hl
  obtain ⟨n2, rfl⟩ := Int.eq_ofNat_of_zero_le (le_trans hl h12)
  rw [blend_channel_nat n1 ch0 ch1 (by omega) h0 h1,
    blend_channel_nat n2 ch0 ch1 (by omega) h0 h1]
  interval_cases ch0 <;> interval_cases ch1 <;> constructor <;> intro _ <;> omega

/-- At `alpha = 0` a channel of the result is the channel of the first colour. -/
theorem blend_channel_zero (ch0 ch1 : Nat) (h0 : ch0 ≤ 3) (h1 : ch1 ≤ 3) :
    blend_channel 0 ch0 ch1 = ch0 := by
  have h := blend_channel_nat 0 ch0 ch1 (by omega) h0 h1
  simp only [Nat.cast_zero] at h
  rw [h]
  omega

/-- At `alpha = 65536` a channel of the result is the channel of the second colour. -/
theorem blend_channel_full (ch0 ch1 : Nat) (h0 : ch0 ≤ 3) (h1 : ch1 ≤ 3) :
    blend_channel 65536 ch0 ch1 = ch1 := by
  have h := blend_channel_nat 65536 ch0 ch1 (by omega) h0 h1
  simp only [Nat.cast_ofNat] at h
  rw [h]
  omega

/-- The accumulator of `blend` after the three shift-and-or steps, for channel values
that fit in two bits. -/
theorem pack_channels (x y z : Nat) (hx : x ≤ 3) (hy : y ≤ 3) (hz : z ≤ 3) :
    (((((((((((3 <<< 2) % 256) ||| x) % 256) <<< 2) % 256) ||| y) % 256) <<< 2) % 256) ||| z)
      % 256 = 0xC0 ||| (x <<< 4) ||| (y <<< 2) ||| z := by
  interval_cases x <;> interval_cases y <;> interval_cases z <;> rfl

/-- A byte packed from two-bit channels has top bits `11` and gives the channels back. -/
theorem packed_fields (x y z : Nat) (hx : x ≤ 3) (hy : y ≤ 3) (hz : z ≤ 3) :
    (0xC0 ||| (x <<< 4) ||| (y <<< 2) ||| z) &&& 0xC0 = 0xC0 ∧
      0xC0 ||| (x <<< 4) ||| (y <<< 2) ||| z < 256 ∧
      chan_r (0xC0 ||| (x <<< 4) ||| (y <<< 2) ||| z) = x ∧
      chan_g (0xC0 ||| (x <<< 4) ||| (y <<< 2) ||| z) = y ∧
      chan_b (0xC0 ||| (x <<< 4) ||| (y <<< 2) ||| z) = z := by
  interval_cases x <;> interval_cases y <;> interval_cases z <;> decide

theorem blend_packed (alpha : Int) (c0 c1 : Nat)
    (hr : blend_channel alpha (chan_r c0) (chan_r c1) ≤ 3)
    (hg : blend_channel alpha (chan_g c0) (chan_g c1) ≤ 3)
    (hb : blend_channel alpha (chan_b c0) (chan_b c1) ≤ 3) :
    blend alpha c0 c1 =
      0xC0 ||| (blend_channel alpha (chan_r c0) (chan_r c1) <<< 4)
        ||| (blend_channel alpha (chan_g c0) (chan_g c1) <<< 2)
        ||| blend_channel alpha (chan_b c0) (chan_b c1) := by
  unfold blend
  exact pack_channels _ _ _ hr hg hb

/-- A byte with top bits `11` is the packing of its own channels. -/
theorem opaque_repack (c : Nat) (h1 : 192 ≤ c) (h2 : c < 256) :
    0xC0 ||| (chan_r c <<< 4) ||| (chan_g c <<< 2) ||| chan_b c = c := by
  interval_cases c <;> rfl

/-- Packing the channels of any byte forces the top bits to `11` and keeps the rest. -/
theorem repack_mask (c : Nat) (h2 : c < 256) :
    0xC0 ||| (chan_r c <<< 4) ||| (chan_g c <<< 2) ||| chan_b c = 0xC0 ||| (c &&& 0x3F) := by
  interval_cases c <;> rfl

/-- For `alpha` in `[0, 65536]` the channels of the blended byte are the blended
channels, the top bits are `11` and the byte fits in 8 bits. -/
theorem blend_fields (alpha : Int) (c0 c1 : Nat) (hl : 0 ≤ alpha) (hu : alpha ≤ 65536) :
    blend alpha c0 c1 &&& 0xC0 = 0xC0 ∧ blend alpha c0 c1 < 256 ∧
      chan_r (blend alpha c0 c1) = blend_channel alpha (chan_r c0) (chan_r c1) ∧
      chan_g (blend alpha c0 c1) = blend_channel alpha (chan_g c0) (chan_g c1) ∧
      chan_b (blend alpha c0 c1) = blend_channel alpha (chan_b c0) (chan_b c1) := by
  have hr := (blend_channel_lerp alpha _ _ hl hu (chan_r_le c0) (chan_r_le c1)).2
  have hg := (blend_channel_lerp alpha _ _ hl hu (chan_g_le c0) (chan_g_le c1)).2
  have hb := (blend_channel_lerp alpha _ _ hl hu (chan_b_le c0) (chan_b_le c1)).2
  rw [blend_packed alpha c0 c1 hr hg hb]
  exact packed_fields _ _ _ hr hg hb

/-! ## Facts about `get_charging_color` -/

/-- The walk over `charge_colors` for a clamped percentage, as a chain of tests. -/
theorem charging_walk_table {γ : Type} (conv : Int → γ) (p : Int) (hp : 0 ≤ p) :
    charging_walk conv p charge_colors =
      some (conv (if p ≤ 90 then if p ≤ 80 then if p ≤ 70 then if p ≤ 50 then
        if p ≤ 30 then if p ≤ 20 then if p ≤ 0 then 0xFF0000 else 0xFF5500
        else 0xFFAA00 else 0xFFFF00 else 0xAAFF00 else 0x55FF00 else 0x00FF00
        else 0x00FF55)) := by
  simp only [charge_colors, charging_walk]
  split_ifs <;> first | rfl | omega

theorem decide_le_pos (p k : Int) (h : p ≤ k) : decide (p ≤ k) = true := by
  simpa using h

theorem decide_le_neg (p k : Int) (h : k < p) : decide (p ≤ k) = false := by
  simpa using h

/-- The claim's selection rule on `charge_colors`, as a chain of tests. -/
theorem ramp_rule_spec_table (p : Int) (hp : 0 ≤ p) :
    ramp_rule_spec charge_colors p =
      some (if p ≤ 90 then if p ≤ 80 then if p ≤ 70 then if p ≤ 50 then
        if p ≤ 30 then if p ≤ 20 then if p ≤ 0 then 0xFF0000 else 0xFF5500
        else 0xFFAA00 else 0xFFFF00 else 0xAAFF00 else 0x55FF00 else 0x00FF00
        else 0x00FF55) := by
  unfold ramp_rule_spec last_key_ge_spec charge_colors
  rcases (by omega : 100 < p ∨ (90 < p ∧ p ≤ 100) ∨ (80 < p ∧ p ≤ 90) ∨ (70 < p ∧ p ≤ 80) ∨
      (50 < p ∧ p ≤ 70) ∨ (30 < p ∧ p ≤ 50) ∨ (20 < p ∧ p ≤ 30) ∨ (0 < p ∧ p ≤ 20) ∨ p = 0)
    with h | h | h | h | h | h | h | h | h <;>
  · simp (disch := omega) only [List.filter, decide_le_pos, decide_le_neg,
      List.getLast?_cons_cons, List.getLast?_singleton, List.getLast?_nil, List.head?_cons,
      Option.map_some']
    split_ifs <;> first | rfl | omega

theorem get_charging_color_eq_rule {γ : Type} (conv : Int → γ) (percent : Int) :
    get_charging_color conv percent =
      (ramp_rule_spec charge_colors (max percent 0)).map conv := by
  have e : (if percent < 0 then 0 else percent) = max percent 0 := by
    split_ifs <;> omega
  unfold get_charging_color
  dsimp only
  rw [e, charging_walk_table conv _ (le_max_right _ _),
    ramp_rule_spec_table _ (le_max_right _ _)]
  rfl

theorem get_charging_color_neg {γ : Type} (conv : Int → γ) (percent : Int) (h : percent < 0) :
    get_charging_color conv percent = some (conv 0xFF0000) := by
  unfold get_charging_color
  rw [if_pos h]
  rfl

/-! ## Facts about the rasterizer loops -/

theorem mem_loop_range (lo hi x : Int) : x ∈ loop_range lo hi ↔ lo ≤ x ∧ x ≤ hi := by
  unfold loop_range
  simp only [List.mem_map, List.mem_range]
  constructor
  · rintro ⟨i, hi1, rfl⟩
    omega
  · intro h
    exact ⟨(x - lo).toNat, by omega, by omega⟩

theorem nodup_loop_range (lo hi : Int) : (loop_range lo hi).Nodup := by
  unfold loop_range
  refine List.Nodup.map ?_ (List.nodup_range _)
  intro i j h
  have h1 : lo + (i : Int) = lo + (j : Int) := h
  omega

theorem needle_step_min_x (sdk : Sdk) (cx cy sx sy y : Int) (fb : GBitmap) (x : Int) :
    (needle_step sdk cx cy sx sy y fb x).min_x = fb.min_x := by
  unfold needle_step
  split <;> rfl

theorem needle_step_max_x (sdk : Sdk) (cx cy sx sy y : Int) (fb : GBitmap) (x : Int) :
    (needle_step sdk cx cy sx sy y fb x).max_x = fb.max_x := by
  unfold needle_step
  split <;> rfl

/-- The loop body changes no pixel but its own. -/
theorem needle_step_data_other (sdk : Sdk) (cx cy sx sy y : Int) (fb : GBitmap) (x : Int)
    (y1 x1 : Int) (h : ¬ (y1 = y ∧ x1 = x)) :
    (needle_step sdk cx cy sx sy y fb x).data y1 x1 = fb.data y1 x1 := by
  unfold needle_step
  split
  · simp only [GBitmap.store, if_neg h]
  · rfl

/-- The loop body leaves in its own pixel the result of the pixel computation. -/
theorem needle_step_data_same (sdk : Sdk) (cx cy sx sy y : Int) (fb : GBitmap) (x : Int) :
    (needle_step sdk cx cy sx sy y fb x).data y x =
      pixel_result sdk sx sy (x - cx) (y - cy) (fb.data y x) := by
  unfold needle_step pixel_result
  split
  · next c hc => simp [GBitmap.store, hc]
  · next hc => simp [hc]

theorem fold_step_min_x (sdk : Sdk) (cx cy sx sy y : Int) (xs : List Int) (fb : GBitmap) :
    (xs.foldl (needle_step sdk cx cy sx sy y) fb).min_x = fb.min_x := by
  induction xs generalizing fb with
  | nil => rfl
  | cons x xs ih => rw [List.foldl_cons, ih, needle_step_min_x]

theorem fold_step_max_x (sdk : Sdk) (cx cy sx sy y : Int) (xs : List Int) (fb : GBitmap) :
    (xs.foldl (needle_step sdk cx cy sx sy y) fb).max_x = fb.max_x := by
  induction xs generalizing fb with
  | nil => rfl
  | cons x xs ih => rw [List.foldl_cons, ih, needle_step_max_x]

/-- A run of the loop body over the columns `xs` of row `y` leaves the other pixels. -/
theorem fold_step_data_other (sdk : Sdk) (cx cy sx sy y : Int) (xs : List Int)
    (fb : GBitmap) (y1 x1 : Int) (h : ¬ (y1 = y ∧ x1 ∈ xs)) :
    (xs.foldl (needle_step sdk cx cy sx sy y) fb).data y1 x1 = fb.data y1 x1 := by
  induction xs generalizing fb with
  | nil => rfl
  | cons x xs ih =>
    rw [List.foldl_cons, ih]
    · apply needle_step_data_other
      rintro ⟨h1, h2⟩
      exact h ⟨h1, by rw [h2]; exact List.mem_cons_self _ _⟩
    · rintro ⟨h1, h2⟩
      exact h ⟨h1, List.mem_cons_of_mem _ h2⟩

/-- A run of the loop body over distinct columns leaves in each of them the result of the
pixel computation on the byte found before the run. -/
theorem fold_step_data_mem (sdk : Sdk) (cx cy sx sy y : Int) (xs : List Int)
    (hn : xs.Nodup) (fb : GBitmap) (x1 : Int) (h : x1 ∈ xs) :
    (xs.foldl (needle_step sdk cx cy sx sy y) fb).data y x1 =
      pixel_result sdk sx sy (x1 - cx) (y - cy) (fb.data y x1) := by
  induction xs generalizing fb with
  | nil => cases h
  | cons x xs ih =>
    rw [List.foldl_cons]
    rw [List.nodup_cons] at hn
    rcases List.mem_cons.mp h with h1 | h1
    · subst h1
      rw [fold_step_data_other _ _ _ _ _ _ _ _ _ _ (fun hh => hn.1 hh.2),
        needle_step_data_same]
    · rw [ih hn.2 _ h1, needle_step_data_other]
      rintro ⟨_, h2⟩
      exact hn.1 (h2 ▸ h1)

/-- The effect of the inner loop for row `y` on every pixel. -/
theorem needle_row_data (sdk : Sdk) (cx cy sx sy : Int) (fb : GBitmap) (y y1 x1 : Int) :
    (needle_row sdk cx cy sx sy fb y).data y1 x1 =
      if y1 = y ∧ fb.min_x y ≤ x1 ∧ x1 ≤ fb.max_x y then
        pixel_result sdk sx sy (x1 - cx) (y1 - cy) (fb.data y1 x1)
      else fb.data y1 x1 := by
  unfold needle_row
  split_ifs with h
  · obtain ⟨rfl, h1⟩ := h
    exact fold_step_data_mem _ _ _ _ _ _ _ (nodup_loop_range _ _) _ _
      ((mem_loop_range _ _ _).mpr h1)
  · apply fold_step_data_other
    rintro ⟨h1, h2⟩
    exact h ⟨h1, (mem_loop_range _ _ _).mp h2⟩

theorem needle_row_min_x (sdk : Sdk) (cx cy sx sy : Int) (fb : GBitmap) (y : Int) :
    (needle_row sdk cx cy sx sy fb y).min_x = fb.min_x :=
  fold_step_min_x _ _ _ _ _ _ _ _

theorem needle_row_max_x (sdk : Sdk) (cx cy sx sy : Int) (fb : GBitmap) (y : Int) :
    (needle_row sdk cx cy sx sy fb y).max_x = fb.max_x :=
  fold_step_max_x _ _ _ _ _ _ _ _

theorem fold_row_min_x (sdk : Sdk) (cx cy sx sy : Int) (ys : List Int) (fb : GBitmap) :
    (ys.foldl (needle_row sdk cx cy sx sy) fb).min_x = fb.min_x := by
  induction ys generalizing fb with
  | nil => rfl
  | cons y ys ih => rw [List.foldl_cons, ih, needle_row_min_x]

theorem fold_row_max_x (sdk : Sdk) (cx cy sx sy : Int) (ys : List Int) (fb : GBitmap) :
    (ys.foldl (needle_row sdk cx cy sx sy) fb).max_x = fb.max_x := by
  induction ys generalizing fb with
  | nil => rfl
  | cons y ys ih => rw [List.foldl_cons, ih, needle_row_max_x]

/-- The effect of the inner loop run over distinct rows `ys` on every pixel. -/
theorem fold_row_data (sdk : Sdk) (cx cy sx sy : Int) (ys : List Int) (hn : ys.Nodup)
    (fb : GBitmap) (y1 x1 : Int) :
    (ys.foldl (needle_row sdk cx cy sx sy) fb).data y1 x1 =
      if y1 ∈ ys ∧ fb.min_x y1 ≤ x1 ∧ x1 ≤ fb.max_x y1 then
        pixel_result sdk sx sy (x1 - cx) (y1 - cy) (fb.data y1 x1)
      else fb.data y1 x1 := by
  induction ys generalizing fb with
  | nil => simp
  | cons y ys ih =>
    rw [List.foldl_cons, ih (List.nodup_cons.mp hn).2, needle_row_min_x, needle_row_max_x,
      needle_row_data]
    have hy := (List.nodup_cons.mp hn).1
    by_cases e : y1 = y
    · subst e
      simp [hy]
    · simp [e]

/-- The effect of the two loops of `needle_update_proc` on every pixel: a pixel of a row
`center.y - 56 .. center.y + 56` inside the row's column range gets the result of the
pixel computation on its old byte, every other pixel keeps its byte. -/
theorem needle_rows_data (sdk : Sdk) (cx cy sx sy : Int) (fb : GBitmap) (y x : Int) :
    (needle_rows sdk cx cy sx sy fb).data y x =
      if (cy - 56 ≤ y ∧ y ≤ cy + 56) ∧ fb.min_x y ≤ x ∧ x ≤ fb.max_x y then
        pixel_result sdk sx sy (x - cx) (y - cy) (fb.data y x)
      else fb.data y x := by
  unfold needle_rows
  rw [fold_row_data _ _ _ _ _ _ (nodup_loop_range _ _)]
  simp only [mem_loop_range]

/-! ## Facts about the pixel computation -/

theorem needle_pixel_outside (sdk : Sdk) (sx sy dx dy : Int) (old : Nat)
    (h : diamond_ld sx sy dx dy > 2 * L) :
    needle_pixel sdk sx sy dx dy old = (Branch.outside, none) := by
  unfold diamond_ld at h
  unfold needle_pixel
  dsimp only at h ⊢
  rw [if_pos (by omega)]

theorem pixel_result_outside (sdk : Sdk) (sx sy dx dy : Int) (old : Nat)
    (h : diamond_ld sx sy dx dy > 2 * L) :
    pixel_result sdk sx sy dx dy old = old := by
  unfold pixel_result
  rw [needle_pixel_outside sdk sx sy dx dy old h]
  rfl

theorem diamond_ld_centre (sx sy : Int) : diamond_ld sx sy 0 0 = -37748736 := by
  unfold diamond_ld
  simp [A, B, r]

theorem needle_pixel_centre (sdk : Sdk) (hT : 0 < sdk.TRIG_MAX_RATIO) (sx sy : Int)
    (old : Nat) :
    needle_pixel sdk sx sy 0 0 old = (Branch.seam_white, some sdk.GColorWhiteARGB8) := by
  unfold needle_pixel
  simp only [zero_mul, add_zero, sub_zero, abs_zero, A, B, r, L]
  rw [if_neg (by omega), if_neg (by omega), if_pos (by omega), if_neg (by omega),
    if_neg (by omega)]

/-- With a heading that is not `DataInvalid` the frame buffer after the call is the one
the two loops leave, for the sine and cosine of the heading. -/
theorem needle_update_proc_fb (sdk : Sdk) (cx cy : Int) (w : World)
    (h : w.g_heading.compass_status ≠ CompassStatus.DataInvalid) :
    (needle_update_proc sdk cx cy w).fb =
      needle_rows sdk cx cy (sdk.cos_lookup w.g_heading.magnetic_heading)
        (sdk.sin_lookup w.g_heading.magnetic_heading) w.fb := by
  unfold needle_update_proc
  dsimp only
  rw [if_neg h]
  split_ifs <;> rfl

/-- With the heading `DataInvalid` the call changes nothing but the capture flag. -/
theorem needle_update_proc_invalid (sdk : Sdk) (cx cy : Int) (w : World)
    (h : w.g_heading.compass_status = CompassStatus.DataInvalid) :
    needle_update_proc sdk cx cy w = { w with captured := true } := by
  unfold needle_update_proc
  dsimp only
  rw [if_pos h]

/-- With a heading that is not `DataInvalid` the frame buffer is released at the end. -/
theorem needle_update_proc_released (sdk : Sdk) (cx cy : Int) (w : World)
    (h : w.g_heading.compass_status ≠ CompassStatus.DataInvalid) :
    (needle_update_proc sdk cx cy w).captured = false := by
  unfold needle_update_proc
  dsimp only
  rw [if_neg h]
  split_ifs <;> rfl

/-! ## More facts about `get_charging_color` -/

theorem charging_walk_index_fst {γ : Type} (conv : Int → γ) (p : Int) (tbl : List color_map)
    (i : Nat) :
    (charging_walk_index conv p tbl i).map Prod.fst = charging_walk conv p tbl := by
  induction tbl generalizing i with
  | nil => rfl
  | cons e t ih =>
    cases t with
    | nil => rfl
    | cons nxt rest =>
      simp only [charging_walk_index, charging_walk]
      split_ifs
      · exact ih (i + 1)
      · rfl

theorem charging_walk_index_bounds {γ : Type} (conv : Int → γ) (p : Int)
    (tbl : List color_map) (i : Nat) (c : γ) (k : Nat)
    (h : charging_walk_index conv p tbl i = some (c, k)) :
    i + 1 ≤ k ∧ k + 1 ≤ i + tbl.length := by
  induction tbl generalizing i with
  | nil => simp [charging_walk_index] at h
  | cons e t ih =>
    cases t with
    | nil => simp [charging_walk_index] at h
    | cons nxt rest =>
      simp only [charging_walk_index] at h
      split_ifs at h
      · have h1 := ih (i + 1) h
        simp only [List.length_cons] at h1 ⊢
        omega
      · simp only [Option.some.injEq, Prod.mk.injEq] at h
        simp only [List.length_cons]
        omega

theorem smallest_key_ge_table (p : Int) (hp : 0 ≤ p) (hq : p ≤ 100) :
    (smallest_key_ge_spec charge_colors p).map (fun e => e.color) =
      some (if p ≤ 90 then if p ≤ 80 then if p ≤ 70 then if p ≤ 50 then
        if p ≤ 30 then if p ≤ 20 then if p ≤ 0 then 0xFF0000 else 0xFF5500
        else 0xFFAA00 else 0xFFFF00 else 0xAAFF00 else 0x55FF00 else 0x00FF00
        else 0x00FF55) := by
  unfold smallest_key_ge_spec charge_colors
  rcases (by omega : (90 < p ∧ p ≤ 100) ∨ (80 < p ∧ p ≤ 90) ∨ (70 < p ∧ p ≤ 80) ∨
      (50 < p ∧ p ≤ 70) ∨ (30 < p ∧ p ≤ 50) ∨ (20 < p ∧ p ≤ 30) ∨ (0 < p ∧ p ≤ 20) ∨ p = 0)
    with h | h | h | h | h | h | h | h <;>
  · simp (disch := omega) only [List.filter, decide_le_pos, decide_le_neg]
    split_ifs <;> first | omega | rfl

theorem get_charging_color_eq_smallest {γ : Type} (conv : Int → γ) (percent : Int)
    (h0 : 0 ≤ percent) (h1 : percent ≤ 100) :
    get_charging_color conv percent =
      (smallest_key_ge_spec charge_colors percent).map (fun e => conv e.color) := by
  have e : (if percent < 0 then 0 else percent) = percent := by
    split_ifs <;> omega
  have h := smallest_key_ge_table percent h0 h1
  unfold get_charging_color
  dsimp only
  rw [e, charging_walk_table conv _ h0]
  cases hs : smallest_key_ge_spec charge_colors percent with
  | none => rw [hs] at h; simp at h
  | some en =>
    rw [hs] at h
    simp only [Option.map_some', Option.some.injEq] at h ⊢
    rw [h]

/-- The walk of `get_charging_color` with the index agrees with the walk without it. -/
theorem get_charging_color_index_fst {γ : Type} (conv : Int → γ) (percent : Int) :
    (get_charging_color_index conv percent).map Prod.fst = get_charging_color conv percent :=
  charging_walk_index_fst conv _ charge_colors 0

/-! ## Facts about the row box -/

/-- The two rotated coordinates have the squared length of the pixel offset times the
squared length of the rotation vector. -/
theorem rotation_norm (sx sy dx dy : Int) :
    |dx * sx + dy * sy| * |dx * sx + dy * sy| + |dy * sx - dx * sy| * |dy * sx - dx * sy| =
      (dx * dx + dy * dy) * (sx * sx + sy * sy) := by
  rw [abs_mul_abs_self, abs_mul_abs_self]
  ring

/-- Two non-negative integers whose squares add up to at least `k * k` add up to at
least `k`. -/
theorem sum_ge_of_squares (u v k : Int) (hu : 0 ≤ u) (hv : 0 ≤ v)
    (h : k * k ≤ u * u + v * v) : k ≤ u + v := by
  by_contra hc
  push_neg at hc
  have h1 : (u + v) * (u + v) < k * k := mul_self_lt_mul_self (add_nonneg hu hv) hc
  nlinarith [mul_nonneg hu hv]

theorem diamond_ld_far_row (sx sy dx dy : Int) (hdy : 57 ≤ |dy|)
    (hrot : 65000 * 65000 ≤ sx * sx + sy * sy) :
    diamond_ld sx sy dx dy ≥ 6711264 := by
  have hdy2 : 57 * 57 ≤ dy * dy := by
    rw [← abs_mul_abs_self dy]
    exact mul_le_mul hdy hdy (by norm_num) (abs_nonneg dy)
  have h1 : (57 * 57) * (65000 * 65000) ≤ (dy * dy) * (sx * sx + sy * sy) :=
    mul_le_mul hdy2 hrot (by norm_num) (mul_self_nonneg dy)
  have h2 : 0 ≤ (dx * dx) * (sx * sx + sy * sy) :=
    mul_nonneg (mul_self_nonneg dx) (by nlinarith [mul_self_nonneg sx, mul_self_nonneg sy])
  have h3 : (3705000 : Int) * 3705000 ≤
      |dx * sx + dy * sy| * |dx * sx + dy * sy| + |dy * sx - dx * sy| * |dy * sx - dx * sy| := by
    rw [rotation_norm]
    nlinarith
  have h4 := sum_ge_of_squares _ _ _ (abs_nonneg _) (abs_nonneg _) h3
  have h5 : 0 ≤ |dx * sx + dy * sy| := abs_nonneg _
  unfold diamond_ld
  simp only [A, B, r]
  omega

/-! ## Facts about the alpha values of the rasterizer -/

theorem half_nudge_RL : nudge RL >>> (1 : Nat) = 663 := by decide

/-- The call `ratio_mul(d, RL)` for a non-negative `d`, in closed form. -/
theorem ratio_mul_RL_eq (d : Int) (h : 0 ≤ d) :
    ratio_mul d RL = adjust ((d + 1) / 2 * 663) / 16384 := by
  unfold ratio_mul
  dsimp only
  rw [half_nudge_RL, half_nudge_nonneg d h, sar_fourteen]

/-- For `0 ≤ d ≤ L` the value `ratio_mul(d, RL)` lies between `-1` and `65606`. -/
theorem ratio_mul_RL_bounds (d : Int) (h0 : 0 ≤ d) (h1 : d ≤ L) :
    -1 ≤ ratio_mul d RL ∧ ratio_mul d RL ≤ 65606 := by
  rw [ratio_mul_RL_eq d h0]
  unfold L at h1
  unfold adjust
  dsimp only
  split_ifs <;> omega

theorem u32_over (a : Nat) (h1 : 65536 < a) (h2 : a ≤ 65606) :
    u32 (a : Int) = a ∧ u32 (65536 - (a : Int)) = 4294967296 + 65536 - a := by
  unfold u32
  omega

/-- One channel of `blend` at `alpha = -1`: the `uint32_t` sum wraps around to a value
whose top half is the channel of the first colour. -/
theorem blend_channel_minus_one (ch0 ch1 : Nat) (h0 : ch0 ≤ 3) (h1 : ch1 ≤ 3) :
    blend_channel (-1) ch0 ch1 = ch0 := by
  have e1 : u32 (-1) = 4294967295 := by unfold u32; omega
  have e2 : u32 (65536 - -1) = 65537 := by unfold u32; omega
  interval_cases ch0 <;> interval_cases ch1 <;>
    (unfold blend_channel; dsimp only; rw [e1, e2, Nat.shiftRight_eq_div_pow])

/-- One channel of `blend` for `65536 < alpha ≤ 65606`, where `beta` wraps around. -/
theorem blend_channel_over (a ch0 ch1 : Nat) (ha : 65536 < a) (ha2 : a ≤ 65606)
    (h0 : ch0 ≤ 3) (h1 : ch1 ≤ 3) :
    min ch0 ch1 ≤ blend_channel (a : Int) ch0 ch1 ∧
      blend_channel (a : Int) ch0 ch1 ≤ max ch0 ch1 := by
  have e := u32_over a ha ha2
  unfold blend_channel
  dsimp only
  rw [e.1, e.2, Nat.shiftRight_eq_div_pow]
  obtain ⟨t, ht⟩ : ∃ t : Nat, t = 4294967296 + 65536 - a := ⟨_, rfl⟩
  rw [← ht]
  have ht1 : t + a = 4294967296 + 65536 := by omega
  clear ht e
  interval_cases ch0 <;> interval_cases ch1 <;> try (constructor <;> omega)
  · have e3 : (3 * a + 0 * t + 32768) % 4294967296 = 3 * a + 32768 := by
      have e4 : 3 * a + 0 * t + 32768 = 3 * a + 32768 := by omega
      rw [e4]
      exact Nat.mod_eq_of_lt (by omega)
    rw [e3]
    constructor <;> omega
  · have e3 : (0 * a + 3 * t + 32768) % 4294967296 = 229376 - 3 * a := by
      have e4 : 0 * a + 3 * t + 32768 = (229376 - 3 * a) + 4294967296 * 3 := by omega
      rw [e4, Nat.add_mul_mod_self_left]
      exact Nat.mod_eq_of_lt (by omega)
    rw [e3]
    constructor <;> omega

/-- One channel of `blend` for an `alpha` between `-1` and `65606`: the `uint32_t`
arithmetic wraps back to the exact value, which lies between the two channel values. -/
theorem blend_channel_wide (alpha : Int) (ch0 ch1 : Nat) (hl : -1 ≤ alpha)
    (hu : alpha ≤ 65606) (h0 : ch0 ≤ 3) (h1 : ch1 ≤ 3) :
    min ch0 ch1 ≤ blend_channel alpha ch0 ch1 ∧ blend_channel alpha ch0 ch1 ≤ max ch0 ch1 := by
  rcases (by omega : alpha = -1 ∨ (0 ≤ alpha ∧ alpha ≤ 65536) ∨ 65536 < alpha)
    with h | h | h
  · subst h
    rw [blend_channel_minus_one ch0 ch1 h0 h1]
    exact ⟨min_le_left _ _, le_max_left _ _⟩
  · obtain ⟨a, rfl⟩ := Int.eq_ofNat_of_zero_le h.1
    rw [blend_channel_nat a ch0 ch1 (by omega) h0 h1]
    interval_cases ch0 <;> interval_cases ch1 <;> constructor <;> omega
  · obtain ⟨a, rfl⟩ := Int.eq_ofNat_of_zero_le (by omega : 0 ≤ alpha)
    exact blend_channel_over a ch0 ch1 (by omega) (by omega) h0 h1

/-- For an `alpha` between `-1` and `65606` the blended byte has top bits `11`, fits in a
byte and holds the three blended channels. -/
theorem blend_fields_wide (alpha : Int) (c0 c1 : Nat) (hl : -1 ≤ alpha) (hu : alpha ≤ 65606) :
    blend alpha c0 c1 &&& 0xC0 = 0xC0 ∧ blend alpha c0 c1 < 256 ∧
      chan_r (blend alpha c0 c1) = blend_channel alpha (chan_r c0) (chan_r c1) ∧
      chan_g (blend alpha c0 c1) = blend_channel alpha (chan_g c0) (chan_g c1) ∧
      chan_b (blend alpha c0 c1) = blend_channel alpha (chan_b c0) (chan_b c1) := by
  have hr := (blend_channel_wide alpha _ _ hl hu (chan_r_le c0) (chan_r_le c1)).2
  have hg := (blend_channel_wide alpha _ _ hl hu (chan_g_le c0) (chan_g_le c1)).2
  have hb := (blend_channel_wide alpha _ _ hl hu (chan_b_le c0) (chan_b_le c1)).2
  have hr3 : blend_channel alpha (chan_r c0) (chan_r c1) ≤ 3 :=
    le_trans hr (max_le (chan_r_le c0) (chan_r_le c1))
  have hg3 : blend_channel alpha (chan_g c0) (chan_g c1) ≤ 3 :=
    le_trans hg (max_le (chan_g_le c0) (chan_g_le c1))
  have hb3 : blend_channel alpha (chan_b c0) (chan_b c1) ≤ 3 :=
    le_trans hb (max_le (chan_b_le c0) (chan_b_le c1))
  rw [blend_packed alpha c0 c1 hr3 hg3 hb3]
  exact packed_fields _ _ _ hr3 hg3 hb3

/-- For an `alpha` between `-1` and `65606` the blended byte has top bits `11`, fits in a
byte, and each of its channels lies between the channels of the two colours. -/
theorem blend_between (alpha : Int) (c0 c1 : Nat) (hl : -1 ≤ alpha) (hu : alpha ≤ 65606) :
    blend alpha c0 c1 &&& 0xC0 = 0xC0 ∧ blend alpha c0 c1 < 256 ∧
      (min (chan_r c0) (chan_r c1) ≤ chan_r (blend alpha c0 c1) ∧
        chan_r (blend alpha c0 c1) ≤ max (chan_r c0) (chan_r c1)) ∧
      (min (chan_g c0) (chan_g c1) ≤ chan_g (blend alpha c0 c1) ∧
        chan_g (blend alpha c0 c1) ≤ max (chan_g c0) (chan_g c1)) ∧
      (min (chan_b c0) (chan_b c1) ≤ chan_b (blend alpha c0 c1) ∧
        chan_b (blend alpha c0 c1) ≤ max (chan_b c0) (chan_b c1)) := by
  have f := blend_fields_wide alpha c0 c1 hl hu
  rw [f.2.2.1, f.2.2.2.1, f.2.2.2.2]
  exact ⟨f.1, f.2.1, blend_channel_wide alpha _ _ hl hu (chan_r_le c0) (chan_r_le c1),
    blend_channel_wide alpha _ _ hl hu (chan_g_le c0) (chan_g_le c1),
    blend_channel_wide alpha _ _ hl hu (chan_b_le c0) (chan_b_le c1)⟩

/-! ## Facts about a second pass of the rasterizer -/

theorem needle_rows_min_x (sdk : Sdk) (cx cy sx sy : Int) (fb : GBitmap) :
    (needle_rows sdk cx cy sx sy fb).min_x = fb.min_x :=
  fold_row_min_x _ _ _ _ _ _ _

theorem needle_rows_max_x (sdk : Sdk) (cx cy sx sy : Int) (fb : GBitmap) :
    (needle_rows sdk cx cy sx sy fb).max_x = fb.max_x :=
  fold_row_max_x _ _ _ _ _ _ _

/-- The effect of two passes of the two loops on every pixel. -/
theorem needle_rows_twice_data (sdk : Sdk) (cx cy sx sy : Int) (fb : GBitmap) (y x : Int) :
    (needle_rows sdk cx cy sx sy (needle_rows sdk cx cy sx sy fb)).data y x =
      if (cy - 56 ≤ y ∧ y ≤ cy + 56) ∧ fb.min_x y ≤ x ∧ x ≤ fb.max_x y then
        pixel_result sdk sx sy (x - cx) (y - cy)
          (pixel_result sdk sx sy (x - cx) (y - cy) (fb.data y x))
      else fb.data y x := by
  rw [needle_rows_data, needle_rows_min_x, needle_rows_max_x, needle_rows_data]
  split_ifs <;> rfl

/-- Outside the fading part of the rim the loop body either leaves the byte of the pixel
or stores a byte that does not depend on the one it finds. -/
theorem pixel_result_off_rim (sdk : Sdk) (sx sy dx dy : Int)
    (h : ¬ (L ≤ diamond_ld sx sy dx dy ∧ diamond_ld sx sy dx dy ≤ 2 * L)) :
    (∀ old : Nat, pixel_result sdk sx sy dx dy old = old) ∨
      ∃ c : Nat, ∀ old : Nat, pixel_result sdk sx sy dx dy old = c := by
  unfold diamond_ld at h
  unfold pixel_result needle_pixel
  dsimp only at h ⊢
  split_ifs <;>
    first
    | (exfalso; omega)
    | (left; intro old; rfl)
    | (right; exact ⟨_, fun old => rfl⟩)

/-- Outside the fading part of the rim the byte that the loop body leaves in a pixel does
not change when the body runs again on it. -/
theorem pixel_result_idem (sdk : Sdk) (sx sy dx dy : Int) (old : Nat)
    (h : ¬ (L ≤ diamond_ld sx sy dx dy ∧ diamond_ld sx sy dx dy ≤ 2 * L)) :
    pixel_result sdk sx sy dx dy (pixel_result sdk sx sy dx dy old) =
      pixel_result sdk sx sy dx dy old := by
  rcases pixel_result_off_rim sdk sx sy dx dy h with h1 | ⟨c, h1⟩
  · rw [h1, h1]
  · rw [h1, h1]

/-- In the fading part of the rim the loop body blends white with the byte it finds. -/
theorem pixel_result_rim_fade (sdk : Sdk) (sx sy dx dy : Int) (old : Nat)
    (h1 : L ≤ diamond_ld sx sy dx dy) (h2 : diamond_ld sx sy dx dy ≤ 2 * L) :
    pixel_result sdk sx sy dx dy old =
      blend (ratio_mul (diamond_ld sx sy dx dy - L) RL) sdk.GColorWhiteARGB8 old := by
  unfold diamond_ld at h1 h2 ⊢
  unfold pixel_result needle_pixel
  dsimp only at h1 h2 ⊢
  have hL : (0 : Int) ≤ L := by decide
  rw [if_neg (by omega), if_pos (by omega), if_neg (by omega)]
  rfl

theorem needle_update_proc_heading (sdk : Sdk) (cx cy : Int) (w : World) :
    (needle_update_proc sdk cx cy w).g_heading = w.g_heading := by
  unfold needle_update_proc
  dsimp only
  split_ifs <;> rfl

/-! ## Facts about the range of the per-pixel arithmetic -/

theorem abs_mul_le_of (a b m n : Int) (ha : |a| ≤ m) (hb : |b| ≤ n) : |a * b| ≤ m * n := by
  rw [abs_mul]
  exact mul_le_mul ha hb (abs_nonneg b) (le_trans (abs_nonneg a) ha)

/-- On a Pebble display the four products of lines 288-289 are at most `90 * 65536` and
`56 * 65536` in absolute value. -/
theorem pixel_products (dx dy sx sy : Int) (hdx : |dx| ≤ 90) (hdy : |dy| ≤ 56)
    (hsx : |sx| ≤ 65536) (hsy : |sy| ≤ 65536) :
    (|dx * sx| ≤ 5898240 ∧ |dy * sy| ≤ 3670016) ∧ |dy * sx| ≤ 3670016 ∧ |dx * sy| ≤ 5898240 := by
  have h1 := abs_mul_le_of dx sx 90 65536 hdx hsx
  have h2 := abs_mul_le_of dy sy 56 65536 hdy hsy
  have h3 := abs_mul_le_of dy sx 56 65536 hdy hsx
  have h4 := abs_mul_le_of dx sy 90 65536 hdx hsy
  norm_num at h1 h2 h3 h4
  exact ⟨⟨h1, h2⟩, h3, h4⟩

theorem abs_bounds (x m : Int) (h : |x| ≤ m) : -m ≤ x ∧ x ≤ m := abs_le.mp h

/-- The rotated coordinates and their absolute values on a Pebble display. -/
theorem rotated_bounds (dx dy sx sy : Int) (hdx : |dx| ≤ 90) (hdy : |dy| ≤ 56)
    (hsx : |sx| ≤ 65536) (hsy : |sy| ≤ 65536) :
    |dx * sx + dy * sy| ≤ 9568256 ∧ |dy * sx - dx * sy| ≤ 9568256 := by
  have h := pixel_products dx dy sx sy hdx hdy hsx hsy
  have h1 := abs_le.mp h.1.1
  have h2 := abs_le.mp h.1.2
  have h3 := abs_le.mp h.2.1
  have h4 := abs_le.mp h.2.2
  constructor <;> rw [abs_le] <;> constructor <;> omega

theorem wrap32_small (x : Int) (h : |x| ≤ 2147483647) : wrap32 x = x := by
  have h1 := abs_le.mp h
  exact wrap32_of_fits ⟨by omega, by omega⟩

/-- On a Pebble display the `int32_t` computation of `ld` gives the exact value. -/
theorem diamond_ld32_eq (dx dy sx sy : Int) (hdx : |dx| ≤ 90) (hdy : |dy| ≤ 56)
    (hsx : |sx| ≤ 65536) (hsy : |sy| ≤ 65536) :
    diamond_ld32 sx sy dx dy = diamond_ld sx sy dx dy := by
  have hp := pixel_products dx dy sx sy hdx hdy hsx hsy
  have hr := rotated_bounds dx dy sx sy hdx hdy hsx hsy
  have n1 : 0 ≤ |dx * sx + dy * sy| := abs_nonneg _
  have n2 : 0 ≤ |dy * sx - dx * sy| := abs_nonneg _
  have f : ∀ z : Int, -2147483648 ≤ z → z ≤ 2147483647 → wrap32 z = z :=
    fun z h1 h2 => wrap32_of_fits ⟨h1, h2⟩
  unfold diamond_ld32 diamond_ld
  simp only [A, B, r]
  rw [wrap32_small (dx * sx) (by omega), wrap32_small (dy * sy) (by omega),
    wrap32_small (dy * sx) (by omega), wrap32_small (dx * sy) (by omega),
    wrap32_small (dx * sx + dy * sy) (by omega), wrap32_small (dy * sx - dx * sy) (by omega),
    f |dx * sx + dy * sy| (by omega) (by omega), f |dy * sx - dx * sy| (by omega) (by omega),
    f (|dx * sx + dy * sy| * 48) (by omega) (by omega),
    f (|dy * sx - dx * sy| * 12) (by omega) (by omega),
    f (|dx * sx + dy * sy| * 48 + |dy * sx - dx * sy| * 12) (by omega) (by omega),
    f _ (by omega) (by omega)]

/-- For `0 ≤ d ≤ L` every intermediate value of the call `ratio_mul(d, RL)` fits in a
signed 32-bit integer and the wrapping computation gives the exact result. -/
theorem ratio_mul_RL_fits (d : Int) (h0 : 0 ≤ d) (h1 : d ≤ L) : ratio_mul_fits d RL := by
  unfold L at h1
  have hn : nudge d = if d > 0 then d + 1 else d := by
    rw [nudge_eq]; split_ifs <;> omega
  have hR : nudge RL = 1326 := by decide
  have hh : nudge d >>> (1 : Nat) = (d + 1) / 2 := half_nudge_nonneg d h0
  have hp : (nudge d >>> (1 : Nat)) * (nudge RL >>> (1 : Nat)) = (d + 1) / 2 * 663 := by
    rw [hh, half_nudge_RL]
  have hfp : fits32 ((d + 1) / 2 * 663) := ⟨by omega, by omega⟩
  have hadj : adjust ((d + 1) / 2 * 663) =
      if (d + 1) / 2 * 663 > 0 then (d + 1) / 2 * 663 - 8192 else (d + 1) / 2 * 663 := by
    unfold adjust; dsimp only; split_ifs <;> omega
  have h32 : ratio_mul32 d RL = ratio_mul d RL := by
    unfold ratio_mul32 ratio_mul
    dsimp only
    rw [nudge32_eq d (by omega), nudge32_eq RL (by decide), hp, wrap32_of_fits hfp,
      adjust32_eq _ hfp]
  unfold ratio_mul_fits
  rw [hp, hadj, ratio_mul_RL_eq d h0, hadj, hn, hR]
  refine ⟨?_, ?_, hfp, ?_, ?_, ?_, h32.trans (by rw [ratio_mul_RL_eq d h0, hadj])⟩
  · split_ifs <;> exact ⟨by omega, by omega⟩
  · exact ⟨by omega, by omega⟩
  · split_ifs <;> exact ⟨by omega, by omega⟩
  · split_ifs <;> exact ⟨by omega, by omega⟩
  · split_ifs <;> exact ⟨by omega, by omega⟩

/-! ## Facts about the two filled halves -/

/-- Away from the seam, with a positive `TRIG_MAX_RATIO`, `ry` is not zero. -/
theorem off_seam_ne_zero (t ry : Int) (hT : 0 < t) (h : 2 * t ≤ |ry|) : ry < 0 ∨ ry > 0 := by
  rcases lt_trichotomy ry 0 with h1 | h1 | h1
  · exact Or.inl h1
  · rw [h1, abs_zero] at h
    omega
  · exact Or.inr h1

/-- The north half, at least `L` inside the edge and off the seam, gets `ARROW_COLOR_N`. -/
theorem needle_pixel_deep_n (sdk : Sdk) (sx sy dx dy : Int) (old : Nat)
    (hld : diamond_ld sx sy dx dy < 0) (hseam : 2 * sdk.TRIG_MAX_RATIO ≤ |dy * sx - dx * sy|)
    (hin : diamond_ld sx sy dx dy + L ≤ 0) (hry : dy * sx - dx * sy < 0) :
    needle_pixel sdk sx sy dx dy old = (Branch.fill_n, some (ARROW_COLOR_N sdk)) := by
  unfold diamond_ld at hld hin
  unfold needle_pixel
  dsimp only at hld hin ⊢
  have hL : (0 : Int) ≤ L := by decide
  rw [if_neg (by omega), if_neg (by omega), if_neg (by omega), if_pos hry, if_neg (by omega)]

/-- The south half, at least `L` inside the edge and off the seam, gets `ARROW_COLOR_S`. -/
theorem needle_pixel_deep_s (sdk : Sdk) (sx sy dx dy : Int) (old : Nat)
    (hld : diamond_ld sx sy dx dy < 0) (hseam : 2 * sdk.TRIG_MAX_RATIO ≤ |dy * sx - dx * sy|)
    (hin : diamond_ld sx sy dx dy + L ≤ 0) (hry : dy * sx - dx * sy > 0) :
    needle_pixel sdk sx sy dx dy old = (Branch.fill_s, some (ARROW_COLOR_S sdk)) := by
  unfold diamond_ld at hld hin
  unfold needle_pixel
  dsimp only at hld hin ⊢
  have hL : (0 : Int) ≤ L := by decide
  rw [if_neg (by omega), if_neg (by omega), if_neg (by omega), if_neg (by omega), if_pos hry,
    if_neg (by omega)]

/-- The byte of a visited pixel after the two loops. -/
theorem needle_rows_visited (sdk : Sdk) (cx cy sx sy : Int) (fb : GBitmap) (y x : Int)
    (hy : cy - 56 ≤ y ∧ y ≤ cy + 56) (hx : fb.min_x y ≤ x ∧ x ≤ fb.max_x y) :
    (needle_rows sdk cx cy sx sy fb).data y x =
      pixel_result sdk sx sy (x - cx) (y - cy) (fb.data y x) := by
  rw [needle_rows_data, if_pos ⟨hy, hx⟩]

/-! ## The claims -/

/-- C1 (failing input): `ratio_mul(-65536, 65536)` is `-65538`, while `a * b / 65536` is
exactly `-65536`: the distance is 2, and no integer nearest to the exact quotient is within
one unit of the result.  The mirrored call `ratio_mul(65536, 65536)` gives `65535`. -/
theorem ratio_mul_neg_one_one :
    ratio_mul (-65536) 65536 = -65538 ∧
      (-65536 : Int) * 65536 = 65536 * (-65536) ∧
      (¬ ∃ n : Int, |65536 * n - (-65536) * 65536| ≤ 32768 ∧
          |ratio_mul (-65536) 65536 - n| ≤ 1) ∧
      ratio_mul 65536 65536 = 65535 := by
  have h : ratio_mul (-65536) 65536 = -65538 := by decide
  refine ⟨h, by norm_num, ?_, by decide⟩
  rintro ⟨n, h1, h2⟩
  rw [h] at h2
  have h3 := abs_le.mp h1
  have h4 := abs_le.mp h2
  omega

/-- C2: for `alpha` in `[0, 65536]` and all colours `c0`, `c1`, `blend alpha c0 c1` is
`0xC0 | (r << 4) | (g << 2) | b` where `r`, `g`, `b` are the values of the interpolation
formula `floor((ch1 * alpha + ch0 * (65536 - alpha) + 32768) / 65536)` on the red, green
and blue channels; each of them lies in `0..3`, the top two bits of the result are `11`,
the result fits in a byte and its three fields hold exactly `r`, `g` and `b`. -/
theorem blend_interpolates (alpha : Int) (hl : 0 ≤ alpha) (hu : alpha ≤ 65536)
    (c0 c1 : Nat) :
    blend alpha c0 c1 =
        0xC0 ||| ((lerp_spec alpha (chan_r c0) (chan_r c1)).toNat <<< 4)
          ||| ((lerp_spec alpha (chan_g c0) (chan_g c1)).toNat <<< 2)
          ||| (lerp_spec alpha (chan_b c0) (chan_b c1)).toNat ∧
      (0 ≤ lerp_spec alpha (chan_r c0) (chan_r c1) ∧
        lerp_spec alpha (chan_r c0) (chan_r c1) ≤ 3) ∧
      (0 ≤ lerp_spec alpha (chan_g c0) (chan_g c1) ∧
        lerp_spec alpha (chan_g c0) (chan_g c1) ≤ 3) ∧
      (0 ≤ lerp_spec alpha (chan_b c0) (chan_b c1) ∧
        lerp_spec alpha (chan_b c0) (chan_b c1) ≤ 3) ∧
      blend alpha c0 c1 &&& 0xC0 = 0xC0 ∧ blend alpha c0 c1 < 256 ∧
      (chan_r (blend alpha c0 c1) : Int) = lerp_spec alpha (chan_r c0) (chan_r c1) ∧
      (chan_g (blend alpha c0 c1) : Int) = lerp_spec alpha (chan_g c0) (chan_g c1) ∧
      (chan_b (blend alpha c0 c1) : Int) = lerp_spec alpha (chan_b c0) (chan_b c1) := by
  have hr := blend_channel_lerp alpha _ _ hl hu (chan_r_le c0) (chan_r_le c1)
  have hg := blend_channel_lerp alpha _ _ hl hu (chan_g_le c0) (chan_g_le c1)
  have hb := blend_channel_lerp alpha _ _ hl hu (chan_b_le c0) (chan_b_le c1)
  have hf := blend_fields alpha c0 c1 hl hu
  have hp := blend_packed alpha c0 c1 hr.2 hg.2 hb.2
  rw [blend_channel_toNat alpha _ _ hl hu (chan_r_le c0) (chan_r_le c1),
    blend_channel_toNat alpha _ _ hl hu (chan_g_le c0) (chan_g_le c1),
    blend_channel_toNat alpha _ _ hl hu (chan_b_le c0) (chan_b_le c1)] at hp
  refine ⟨hp, ⟨by omega, by omega⟩, ⟨by omega, by omega⟩, ⟨by omega, by omega⟩,
    hf.1, hf.2.1, ?_, ?_, ?_⟩
  · rw [hf.2.2.1]; exact hr.1
  · rw [hf.2.2.2.1]; exact hg.1
  · rw [hf.2.2.2.2]; exact hb.1

/-- C2 at `alpha = 21845` with the colours `0xC7` and `0xFF`. -/
theorem blend_interpolates_witness :
    ((0 : Int) ≤ 21845 ∧ (21845 : Int) ≤ 65536) ∧
    blend 21845 0xC7 0xFF =
        0xC0 ||| ((lerp_spec 21845 (chan_r 0xC7) (chan_r 0xFF)).toNat <<< 4)
          ||| ((lerp_spec 21845 (chan_g 0xC7) (chan_g 0xFF)).toNat <<< 2)
          ||| (lerp_spec 21845 (chan_b 0xC7) (chan_b 0xFF)).toNat ∧
      (0 ≤ lerp_spec 21845 (chan_r 0xC7) (chan_r 0xFF) ∧
        lerp_spec 21845 (chan_r 0xC7) (chan_r 0xFF) ≤ 3) ∧
      (0 ≤ lerp_spec 21845 (chan_g 0xC7) (chan_g 0xFF) ∧
        lerp_spec 21845 (chan_g 0xC7) (chan_g 0xFF) ≤ 3) ∧
      (0 ≤ lerp_spec 21845 (chan_b 0xC7) (chan_b 0xFF) ∧
        lerp_spec 21845 (chan_b 0xC7) (chan_b 0xFF) ≤ 3) ∧
      blend 21845 0xC7 0xFF &&& 0xC0 = 0xC0 ∧ blend 21845 0xC7 0xFF < 256 ∧
      (chan_r (blend 21845 0xC7 0xFF) : Int) = lerp_spec 21845 (chan_r 0xC7) (chan_r 0xFF) ∧
      (chan_g (blend 21845 0xC7 0xFF) : Int) = lerp_spec 21845 (chan_g 0xC7) (chan_g 0xFF) ∧
      (chan_b (blend 21845 0xC7 0xFF) : Int) = lerp_spec 21845 (chan_b 0xC7) (chan_b 0xFF) :=
  ⟨by decide, blend_interpolates 21845 (by decide) (by decide) 0xC7 0xFF⟩

/-- C3 (counterexample): for the bytes `0x15` and `0x2A`, whose top bits are `00`,
`blend(0, X, Y)` is `0xD5`, not `X`, and `blend(65536, X, Y)` is `0xEA`, not `Y`. -/
theorem blend_boundary_counterexample :
    (0x15 < 256 ∧ 0x2A < 256) ∧ blend 0 0x15 0x2A = 0xD5 ∧ blend 65536 0x15 0x2A = 0xEA ∧
      blend 0 0x15 0x2A ≠ 0x15 ∧ blend 65536 0x15 0x2A ≠ 0x2A := by
  decide

/-- C3 (amended): for all 8-bit colours `X` and `Y`, `blend(0, X, Y)` is `X` with its top
two bits forced to `11` and `blend(65536, X, Y)` is `Y` with its top two bits forced to
`11`; so `blend(0, X, Y) = X` when the top two bits of `X` are `11`, and
`blend(65536, X, Y) = Y` when the top two bits of `Y` are `11`. -/
theorem blend_boundary (X Y : Nat) (hX : X < 256) (hY : Y < 256) :
    blend 0 X Y = 0xC0 ||| (X &&& 0x3F) ∧ blend 65536 X Y = 0xC0 ||| (Y &&& 0x3F) ∧
      (192 ≤ X → blend 0 X Y = X) ∧ (192 ≤ Y → blend 65536 X Y = Y) := by
  have z := fun (u v : Nat) (hu : u ≤ 3) (hv : v ≤ 3) => blend_channel_zero u v hu hv
  have f := fun (u v : Nat) (hu : u ≤ 3) (hv : v ≤ 3) => blend_channel_full u v hu hv
  have e0 : blend 0 X Y = 0xC0 ||| (chan_r X <<< 4) ||| (chan_g X <<< 2) ||| chan_b X := by
    have h := blend_packed 0 X Y
      (by rw [z _ _ (chan_r_le X) (chan_r_le Y)]; exact chan_r_le X)
      (by rw [z _ _ (chan_g_le X) (chan_g_le Y)]; exact chan_g_le X)
      (by rw [z _ _ (chan_b_le X) (chan_b_le Y)]; exact chan_b_le X)
    rw [z _ _ (chan_r_le X) (chan_r_le Y), z _ _ (chan_g_le X) (chan_g_le Y),
      z _ _ (chan_b_le X) (chan_b_le Y)] at h
    exact h
  have e1 : blend 65536 X Y =
      0xC0 ||| (chan_r Y <<< 4) ||| (chan_g Y <<< 2) ||| chan_b Y := by
    have h := blend_packed 65536 X Y
      (by rw [f _ _ (chan_r_le X) (chan_r_le Y)]; exact chan_r_le Y)
      (by rw [f _ _ (chan_g_le X) (chan_g_le Y)]; exact chan_g_le Y)
      (by rw [f _ _ (chan_b_le X) (chan_b_le Y)]; exact chan_b_le Y)
    rw [f _ _ (chan_r_le X) (chan_r_le Y), f _ _ (chan_g_le X) (chan_g_le Y),
      f _ _ (chan_b_le X) (chan_b_le Y)] at h
    exact h
  refine ⟨?_, ?_, ?_, ?_⟩
  · rw [e0]; exact repack_mask X hX
  · rw [e1]; exact repack_mask Y hY
  · intro h; rw [e0]; exact opaque_repack X h hX
  · intro h; rw [e1]; exact opaque_repack Y h hY

/-- C3 (amended) at the colours `0xC7` and `0x2A`. -/
theorem blend_boundary_witness :
    (0xC7 < 256 ∧ 0x2A < 256) ∧
    blend 0 0xC7 0x2A = 0xC0 ||| (0xC7 &&& 0x3F) ∧
      blend 65536 0xC7 0x2A = 0xC0 ||| (0x2A &&& 0x3F) ∧
      (192 ≤ 0xC7 → blend 0 0xC7 0x2A = 0xC7) ∧ (192 ≤ 0x2A → blend 65536 0xC7 0x2A = 0x2A) :=
  ⟨by decide, blend_boundary 0xC7 0x2A (by decide) (by decide)⟩

/-- C4: for every integer `percent`, `get_charging_color` returns the (converted) colour of
the last entry of `charge_colors`, in table order, whose key is at least `max percent 0`,
and that of the first entry (key 100) when no key is; 85 and 90 give the colour of the
key-90 entry and 91 gives the colour of the key-100 entry. -/
theorem get_charging_color_rule {γ : Type} (conv : Int → γ) (percent : Int) :
    get_charging_color conv percent =
        (ramp_rule_spec charge_colors (max percent 0)).map conv ∧
      charge_colors.head? = some ⟨100, 0x00FF55⟩ ∧
      get_charging_color conv 85 = some (conv 0x00FF00) ∧
      get_charging_color conv 90 = some (conv 0x00FF00) ∧
      get_charging_color conv 91 = some (conv 0x00FF55) ∧
      (⟨90, 0x00FF00⟩ : color_map) ∈ charge_colors :=
  ⟨get_charging_color_eq_rule conv percent, rfl, rfl, rfl, rfl, by decide⟩

/-- C5: a pixel whose diamond distance `ld` is greater than `2 * L = 6485084` takes the
`continue` of line 296, and its byte after the two loops, and after the whole call of
`needle_update_proc`, is its byte before, for every frame buffer, centre and rotation
`(sx, sy)`; at `sx = 65536`, `sy = 0` the pixel at `dx = 0`, `dy = -68` has
`ld = 15728640 > 2 * L` and keeps its byte. -/
theorem needle_outside_untouched (sdk : Sdk) (cx cy sx sy : Int) (fb : GBitmap) (x y : Int)
    (h : diamond_ld sx sy (x - cx) (y - cy) > 2 * L) :
    diamond_ld sx sy (x - cx) (y - cy) =
        |(x - cx) * sx + (y - cy) * sy| * 48 + |(y - cy) * sx - (x - cx) * sy| * 12
          - 576 * 65536 ∧
      needle_pixel sdk sx sy (x - cx) (y - cy) (fb.data y x) = (Branch.outside, none) ∧
      (needle_rows sdk cx cy sx sy fb).data y x = fb.data y x ∧
      (∀ w : World, w.fb = fb → sdk.cos_lookup w.g_heading.magnetic_heading = sx →
        sdk.sin_lookup w.g_heading.magnetic_heading = sy →
        (needle_update_proc sdk cx cy w).fb.data y x = fb.data y x) ∧
      (2 * L = 6485084 ∧ diamond_ld 65536 0 0 (-68) = 15728640 ∧
        (needle_rows sdk cx cy 65536 0 fb).data (cy - 68) cx = fb.data (cy - 68) cx) := by
  have hrows : (needle_rows sdk cx cy sx sy fb).data y x = fb.data y x := by
    rw [needle_rows_data, pixel_result_outside sdk sx sy _ _ _ h]
    split_ifs <;> rfl
  have htip : (needle_rows sdk cx cy 65536 0 fb).data (cy - 68) cx
      = fb.data (cy - 68) cx := by
    have e1 : cx - cx = 0 := by omega
    have e2 : cy - 68 - cy = -68 := by omega
    rw [needle_rows_data, e1, e2, pixel_result_outside sdk 65536 0 0 (-68) _ (by decide)]
    split_ifs <;> rfl
  refine ⟨by simp [diamond_ld, A, B, r], needle_pixel_outside sdk sx sy _ _ _ h, hrows, ?_,
    by decide, by decide, htip⟩
  intro w hw hc hs
  by_cases hv : w.g_heading.compass_status = CompassStatus.DataInvalid
  · rw [needle_update_proc_invalid sdk cx cy w hv, ← hw]
  · rw [needle_update_proc_fb sdk cx cy w hv, hc, hs, hw]
    exact hrows

/-- C5 at the centre `(72, 84)`, rotation `(65536, 0)` and the pixel `(72, 16)`, which is
`dx = 0`, `dy = -68`. -/
theorem needle_outside_untouched_witness :
    diamond_ld 65536 0 (72 - 72) (16 - 84) > 2 * L ∧
      (needle_rows sample_sdk 72 84 65536 0 sample_fb).data 16 72 = sample_fb.data 16 72 :=
  ⟨by decide, (needle_outside_untouched sample_sdk 72 84 65536 0 sample_fb 72 16
    (by decide)).2.2.1⟩

/-- C6: for operands in `[-65536, 65536]` every intermediate value of `ratio_mul` fits
in a signed 32-bit integer: the operands after `-= 1` or `+= 1`, the nudged operands, the
product of their halves, the product after `+= 8192` or `-= 8192`, the adjusted product
and the result; and the computation in wrapping `int32_t` arithmetic gives the same
result as the computation in unbounded integers. -/
theorem ratio_mul_no_overflow (a b : Int) (ha : -65536 ≤ a ∧ a ≤ 65536)
    (hb : -65536 ≤ b ∧ b ≤ 65536) :
    (fits32 (a - 1) ∧ fits32 (a + 1) ∧ fits32 (b - 1) ∧ fits32 (b + 1)) ∧
      (fits32 (nudge a) ∧ fits32 (nudge b)) ∧
      fits32 ((nudge a >>> (1 : Nat)) * (nudge b >>> (1 : Nat))) ∧
      (fits32 ((nudge a >>> (1 : Nat)) * (nudge b >>> (1 : Nat)) + 8192) ∧
        fits32 ((nudge a >>> (1 : Nat)) * (nudge b >>> (1 : Nat)) - 8192)) ∧
      fits32 (adjust ((nudge a >>> (1 : Nat)) * (nudge b >>> (1 : Nat)))) ∧
      fits32 (ratio_mul a b) ∧
      ratio_mul32 a b = ratio_mul a b := by
  have hp := ratio_mul_product_fits a b ha hb
  have hadj := adjust_bounds _ hp
  have hna : -65537 ≤ nudge a ∧ nudge a ≤ 65537 := by
    rw [nudge_eq]; split_ifs <;> omega
  have hnb : -65537 ≤ nudge b ∧ nudge b ≤ 65537 := by
    rw [nudge_eq]; split_ifs <;> omega
  refine ⟨⟨⟨by omega, by omega⟩, ⟨by omega, by omega⟩, ⟨by omega, by omega⟩,
      ⟨by omega, by omega⟩⟩,
    ⟨⟨by omega, by omega⟩, ⟨by omega, by omega⟩⟩, ⟨by omega, by omega⟩,
    ⟨⟨by omega, by omega⟩, ⟨by omega, by omega⟩⟩,
    ⟨by omega, by omega⟩, ?_, ratio_mul32_eq a b ha hb⟩
  unfold ratio_mul
  simp only []
  rw [sar_fourteen]
  exact ⟨by omega, by omega⟩

/-- C6 at `a = -65536`, `b = 65536`. -/
theorem ratio_mul_no_overflow_witness :
    ((-65536 : Int) ≤ -65536 ∧ (-65536 : Int) ≤ 65536) ∧
      ((-65536 : Int) ≤ 65536 ∧ (65536 : Int) ≤ 65536) ∧
      fits32 ((nudge (-65536) >>> (1 : Nat)) * (nudge 65536 >>> (1 : Nat))) ∧
      fits32 (ratio_mul (-65536) 65536) ∧
      ratio_mul32 (-65536) 65536 = ratio_mul (-65536) 65536 :=
  have h := ratio_mul_no_overflow (-65536) 65536 ⟨by decide, by decide⟩
    ⟨by decide, by decide⟩
  ⟨by decide, by decide, h.2.2.1, h.2.2.2.2.2.1, h.2.2.2.2.2.2⟩

/-- C7 (failing input): with the heading status `DataInvalid` the call captures the frame
buffer and returns with it still captured, whatever the frame buffer, the angle and the
flag before the call; with `Calibrating` and `Calibrated` it is released. -/
theorem needle_invalid_keeps_capture (sdk : Sdk) (cx cy : Int) (fb : GBitmap)
    (captured : Bool) (angle deg : Int) (dirty : Bool) :
    (needle_update_proc sdk cx cy
        ⟨fb, captured, ⟨angle, CompassStatus.DataInvalid⟩, deg, dirty⟩).captured = true ∧
      (needle_update_proc sdk cx cy
        ⟨fb, captured, ⟨angle, CompassStatus.Calibrating⟩, deg, dirty⟩).captured = false ∧
      (needle_update_proc sdk cx cy
        ⟨fb, captured, ⟨angle, CompassStatus.Calibrated⟩, deg, dirty⟩).captured = false := by
  refine ⟨?_, ?_, ?_⟩
  · rw [needle_update_proc_invalid _ _ _ _ rfl]
  · exact needle_update_proc_released _ _ _ _ (by simp)
  · exact needle_update_proc_released _ _ _ _ (by simp)

/-- C8 (counterexample): for `percent = -1`, with the hex colour returned as it is,
`get_charging_color` gives `0xFF0000`, the colour of the key-0 entry, and not `0xFFFFFF`,
the colour of the sentinel entry. -/
theorem get_charging_color_negative_counterexample :
    (-1 : Int) < 0 ∧ get_charging_color (fun v => v) (-1) = some 0xFF0000 ∧
      get_charging_color (fun v => v) (-1) ≠ some 0xFFFFFF := by
  decide

/-- C8 (amended): for every `percent < 0`, `get_charging_color` returns the colour of the
key-0 entry (`0xFF0000`), the same as for `percent = 0`. -/
theorem get_charging_color_negative {γ : Type} (conv : Int → γ) (percent : Int)
    (h : percent < 0) :
    get_charging_color conv percent = some (conv 0xFF0000) ∧
      get_charging_color conv percent = get_charging_color conv 0 ∧
      (⟨0, 0xFF0000⟩ : color_map) ∈ charge_colors :=
  ⟨get_charging_color_neg conv percent h, by rw [get_charging_color_neg conv percent h]; rfl,
    by decide⟩

/-- C8 (amended) at `percent = -7`, with the hex colour returned as it is. -/
theorem get_charging_color_negative_witness :
    (-7 : Int) < 0 ∧
      (get_charging_color (fun v => v) (-7) = some ((fun v => v) 0xFF0000) ∧
        get_charging_color (fun v => v) (-7) = get_charging_color (fun v => v) 0 ∧
        (⟨0, 0xFF0000⟩ : color_map) ∈ charge_colors) :=
  ⟨by decide, get_charging_color_negative (fun v => v) (-7) (by decide)⟩

/-- C9: for every rotation `(sx, sy)` the centre pixel (`dx = 0`, `dy = 0`) has
`ld = -(576 << 16) < 0`, so neither the test `ld > L * 2` nor the test `ld >= 0` holds; with
a positive `TRIG_MAX_RATIO` the loop body takes the unblended centreline-seam path and
stores `GColorWhiteARGB8`, and a call of `needle_update_proc` with a status other than
`DataInvalid` leaves that byte in the centre pixel when the centre lies in the column
range of its row. -/
theorem centre_pixel_interior (sdk : Sdk) (hT : 0 < sdk.TRIG_MAX_RATIO) (cx cy sx sy : Int)
    (fb : GBitmap) :
    diamond_ld sx sy 0 0 < 0 ∧
      ¬ diamond_ld sx sy 0 0 > L * 2 ∧ ¬ diamond_ld sx sy 0 0 ≥ 0 ∧
      (∀ old : Nat,
        needle_pixel sdk sx sy 0 0 old = (Branch.seam_white, some sdk.GColorWhiteARGB8)) ∧
      (fb.min_x cy ≤ cx → cx ≤ fb.max_x cy →
        (needle_rows sdk cx cy sx sy fb).data cy cx = sdk.GColorWhiteARGB8) ∧
      (∀ w : World, w.fb = fb →
        w.g_heading.compass_status ≠ CompassStatus.DataInvalid →
        sdk.cos_lookup w.g_heading.magnetic_heading = sx →
        sdk.sin_lookup w.g_heading.magnetic_heading = sy →
        fb.min_x cy ≤ cx → cx ≤ fb.max_x cy →
        (needle_update_proc sdk cx cy w).fb.data cy cx = sdk.GColorWhiteARGB8) := by
  have hld := diamond_ld_centre sx sy
  have hrows : fb.min_x cy ≤ cx → cx ≤ fb.max_x cy →
      (needle_rows sdk cx cy sx sy fb).data cy cx = sdk.GColorWhiteARGB8 := by
    intro h1 h2
    rw [needle_rows_data, if_pos ⟨⟨by omega, by omega⟩, h1, h2⟩, sub_self, sub_self]
    unfold pixel_result
    rw [needle_pixel_centre sdk hT]
    rfl
  refine ⟨by omega, by simp only [L]; omega, by omega,
    fun old => needle_pixel_centre sdk hT sx sy old, hrows, ?_⟩
  intro w hw hv hc hs h1 h2
  rw [needle_update_proc_fb sdk cx cy w hv, hc, hs, hw]
  exact hrows h1 h2

/-- C9 at the centre `(72, 84)` of the sample frame buffer, for a rotation of 45 degrees. -/
theorem centre_pixel_interior_witness :
    0 < sample_sdk.TRIG_MAX_RATIO ∧
      (needle_rows sample_sdk 72 84 46341 46341 sample_fb).data 84 72 = 0xFF :=
  ⟨by decide,
    (centre_pixel_interior sample_sdk (by decide) 72 84 46341 46341 sample_fb).2.2.2.2.1
      (by decide) (by decide)⟩

/-- C10: for fixed colours and `0 ≤ alpha1 ≤ alpha2 ≤ 65536`, every channel of
`blend alpha2 c0 c1` is at least the same channel of `blend alpha1 c0 c1` when that channel
of `c1` is at least that of `c0`, and at most it otherwise. -/
theorem blend_monotone (c0 c1 : Nat) (alpha1 alpha2 : Int) (hl : 0 ≤ alpha1)
    (h12 : alpha1 ≤ alpha2) (hu : alpha2 ≤ 65536) :
    ((chan_r c0 ≤ chan_r c1 → chan_r (blend alpha1 c0 c1) ≤ chan_r (blend alpha2 c0 c1)) ∧
      (chan_r c1 < chan_r c0 → chan_r (blend alpha2 c0 c1) ≤ chan_r (blend alpha1 c0 c1))) ∧
    ((chan_g c0 ≤ chan_g c1 → chan_g (blend alpha1 c0 c1) ≤ chan_g (blend alpha2 c0 c1)) ∧
      (chan_g c1 < chan_g c0 → chan_g (blend alpha2 c0 c1) ≤ chan_g (blend alpha1 c0 c1))) ∧
    ((chan_b c0 ≤ chan_b c1 → chan_b (blend alpha1 c0 c1) ≤ chan_b (blend alpha2 c0 c1)) ∧
      (chan_b c1 < chan_b c0 → chan_b (blend alpha2 c0 c1) ≤ chan_b (blend alpha1 c0 c1))) := by
  have f1 := blend_fields alpha1 c0 c1 hl (le_trans h12 hu)
  have f2 := blend_fields alpha2 c0 c1 (le_trans hl h12) hu
  rw [f1.2.2.1, f1.2.2.2.1, f1.2.2.2.2, f2.2.2.1, f2.2.2.2.1, f2.2.2.2.2]
  exact ⟨blend_channel_mono alpha1 alpha2 _ _ hl h12 hu (chan_r_le c0) (chan_r_le c1),
    blend_channel_mono alpha1 alpha2 _ _ hl h12 hu (chan_g_le c0) (chan_g_le c1),
    blend_channel_mono alpha1 alpha2 _ _ hl h12 hu (chan_b_le c0) (chan_b_le c1)⟩

/-- C10 at `alpha1 = 1000`, `alpha2 = 40000` with the colours `0xC7` and `0xF8`. -/
theorem blend_monotone_witness :
    ((0 : Int) ≤ 1000 ∧ (1000 : Int) ≤ 40000 ∧ (40000 : Int) ≤ 65536) ∧
    ((chan_r 0xC7 ≤ chan_r 0xF8 →
        chan_r (blend 1000 0xC7 0xF8) ≤ chan_r (blend 40000 0xC7 0xF8)) ∧
      (chan_r 0xF8 < chan_r 0xC7 →
        chan_r (blend 40000 0xC7 0xF8) ≤ chan_r (blend 1000 0xC7 0xF8))) ∧
    ((chan_g 0xC7 ≤ chan_g 0xF8 →
        chan_g (blend 1000 0xC7 0xF8) ≤ chan_g (blend 40000 0xC7 0xF8)) ∧
      (chan_g 0xF8 < chan_g 0xC7 →
        chan_g (blend 40000 0xC7 0xF8) ≤ chan_g (blend 1000 0xC7 0xF8))) ∧
    ((chan_b 0xC7 ≤ chan_b 0xF8 →
        chan_b (blend 1000 0xC7 0xF8) ≤ chan_b (blend 40000 0xC7 0xF8)) ∧
      (chan_b 0xF8 < chan_b 0xC7 →
        chan_b (blend 40000 0xC7 0xF8) ≤ chan_b (blend 1000 0xC7 0xF8))) :=
  ⟨by decide, blend_monotone 0xC7 0xF8 1000 40000 (by decide) (by decide) (by decide)⟩

/-- C11 (counterexample): at angle 0 (`sx = 65536`, `sy = 0`) the pixel at `dx = 0`,
`dy = -60` has `ld = 9437184`, which is not negative, and the loop body takes the
`continue` of line 296 for it, not one of the three centreline-seam paths. -/
theorem tip_pixel_counterexample :
    diamond_ld 65536 0 0 (-60) = 9437184 ∧ ¬ diamond_ld 65536 0 0 (-60) < 0 ∧
      (needle_pixel sample_sdk 65536 0 0 (-60) 0xC0).1 = Branch.outside ∧
      (needle_pixel sample_sdk 65536 0 0 (-60) 0xC0).1 ≠ Branch.seam_white ∧
      (needle_pixel sample_sdk 65536 0 0 (-60) 0xC0).1 ≠ Branch.seam_n ∧
      (needle_pixel sample_sdk 65536 0 0 (-60) 0xC0).1 ≠ Branch.seam_s := by
  decide

/-- C11 (amended): with `A = 12`, `B = 48`, `L = 3242542`, `RL = 1325` and angle 0
(`sx = 65536`, `sy = 0`) the pixel at `dx = 0`, `dy = -60` has
`ld = 9437184 > 2 * L = 6485084`: it is classified outside, the loop body stores nothing
for it, and it keeps its byte through the two loops and through a call of
`needle_update_proc` with status `Calibrated`. -/
theorem tip_pixel_outside (sdk : Sdk) (cx cy : Int) (fb : GBitmap) (old : Nat) :
    (A = 12 ∧ B = 48 ∧ L = 3242542 ∧ RL = 1325) ∧
      diamond_ld 65536 0 0 (-60) = 9437184 ∧ 9437184 > 2 * L ∧
      needle_pixel sdk 65536 0 0 (-60) old = (Branch.outside, none) ∧
      (needle_rows sdk cx cy 65536 0 fb).data (cy - 60) cx = fb.data (cy - 60) cx ∧
      (∀ w : World, w.fb = fb → w.g_heading.compass_status = CompassStatus.Calibrated →
        sdk.cos_lookup w.g_heading.magnetic_heading = 65536 →
        sdk.sin_lookup w.g_heading.magnetic_heading = 0 →
        (needle_update_proc sdk cx cy w).fb.data (cy - 60) cx = fb.data (cy - 60) cx) := by
  have hout : diamond_ld 65536 0 0 (-60) > 2 * L := by decide
  have hrows : (needle_rows sdk cx cy 65536 0 fb).data (cy - 60) cx
      = fb.data (cy - 60) cx := by
    have e1 : cx - cx = 0 := by omega
    have e2 : cy - 60 - cy = -60 := by omega
    rw [needle_rows_data, e1, e2, pixel_result_outside sdk 65536 0 0 (-60) _ hout]
    split_ifs <;> rfl
  refine ⟨by decide, by decide, by decide, needle_pixel_outside sdk 65536 0 0 (-60) old hout,
    hrows, ?_⟩
  intro w hw hst hc hs
  have hv : w.g_heading.compass_status ≠ CompassStatus.DataInvalid := by
    rw [hst]; decide
  rw [needle_update_proc_fb sdk cx cy w hv, hc, hs, hw]
  exact hrows

/-- C12 (counterexample): for `percent = 85`, with the hex colour returned as it is,
`get_charging_color` gives `0x00FF00`, the colour of the key-90 entry, while the entry with
the largest threshold that is at most 85 is the key-80 entry, of colour `0x55FF00`. -/
theorem get_charging_color_round_down_counterexample :
    ((0 : Int) ≤ 85 ∧ (85 : Int) ≤ 100) ∧
      get_charging_color (fun v => v) 85 = some 0x00FF00 ∧
      largest_key_le_spec charge_colors 85 = some ⟨80, 0x55FF00⟩ ∧
      get_charging_color (fun v => v) 85 ≠
        (largest_key_le_spec charge_colors 85).map (fun e => e.color) := by
  decide

/-- C12 (amended): for every `percent` in `0..100`, `get_charging_color` returns the colour
of the entry of `charge_colors` with the smallest threshold that is at least `percent`
(it rounds up to the nearest bucket). -/
theorem get_charging_color_rounds_up {γ : Type} (conv : Int → γ) (percent : Int)
    (h0 : 0 ≤ percent) (h1 : percent ≤ 100) :
    get_charging_color conv percent =
      (smallest_key_ge_spec charge_colors percent).map (fun e => conv e.color) :=
  get_charging_color_eq_smallest conv percent h0 h1

/-- C12 (amended) at `percent = 85`, with the hex colour returned as it is. -/
theorem get_charging_color_rounds_up_witness :
    ((0 : Int) ≤ 85 ∧ (85 : Int) ≤ 100) ∧
      get_charging_color (fun v => v) 85 =
        (smallest_key_ge_spec charge_colors 85).map (fun e => (fun v => v) e.color) :=
  ⟨by decide, get_charging_color_rounds_up (fun v => v) 85 (by decide) (by decide)⟩

/-- C13: with the heading status `DataInvalid`, `needle_update_proc` returns the frame
buffer it was given: every pixel keeps its byte and the column ranges are the same,
whatever the angle, the frame buffer and the rest of the state. -/
theorem needle_invalid_pixels_unchanged (sdk : Sdk) (cx cy : Int) (fb : GBitmap)
    (captured : Bool) (angle deg : Int) (dirty : Bool) :
    (needle_update_proc sdk cx cy
        ⟨fb, captured, ⟨angle, CompassStatus.DataInvalid⟩, deg, dirty⟩).fb = fb ∧
      ∀ y x : Int, (needle_update_proc sdk cx cy
        ⟨fb, captured, ⟨angle, CompassStatus.DataInvalid⟩, deg, dirty⟩).fb.data y x
          = fb.data y x := by
  have h : (needle_update_proc sdk cx cy
      ⟨fb, captured, ⟨angle, CompassStatus.DataInvalid⟩, deg, dirty⟩).fb = fb := by
    rw [needle_update_proc_invalid _ _ _ _ rfl]
  exact ⟨h, fun y x => by rw [h]⟩

/-- C14: for every integer `percent` the walk of `get_charging_color` over the nine
entries of `charge_colors` ends with a colour and without reading past the table: the
clamped percentage is greater than the key `-1` of the last entry, and the index of the
last entry read is between 1 and 8. -/
theorem charging_walk_in_bounds {γ : Type} (conv : Int → γ) (percent : Int) :
    charge_colors.length = 9 ∧ charge_colors.getLast? = some ⟨-1, 0xFFFFFF⟩ ∧
      (-1 : Int) < (if percent < 0 then 0 else percent) ∧
      ∃ (c : γ) (k : Nat), get_charging_color_index conv percent = some (c, k) ∧
        1 ≤ k ∧ k ≤ 8 ∧ get_charging_color conv percent = some c := by
  refine ⟨rfl, rfl, by split_ifs <;> omega, ?_⟩
  have hfst := get_charging_color_index_fst conv percent
  have hrule := get_charging_color_eq_rule conv percent
  rw [ramp_rule_spec_table _ (le_max_right _ _)] at hrule
  cases hw : get_charging_color_index conv percent with
  | none =>
    rw [hw, hrule] at hfst
    simp at hfst
  | some ck =>
    obtain ⟨c, k⟩ := ck
    rw [hw] at hfst
    have hb := charging_walk_index_bounds conv _ charge_colors 0 c k hw
    have hlen : charge_colors.length = 9 := rfl
    rw [hlen] at hb
    exact ⟨c, k, rfl, by omega, by omega, hfst.symm⟩

/-- C15: for every pixel offset with `|dy| >= 57` and every rotation vector with
`sx * sx + sy * sy >= 65000 * 65000`, the diamond distance
`ld = |dx*sx + dy*sy| * 48 + |dy*sx - dx*sy| * 12 - 576 * 65536` is at least `6711264`,
which is greater than `2 * L = 6485084`; the loop body would take the `continue` of line
296 for such a pixel and store nothing. -/
theorem row_box_covers (sdk : Sdk) (dx dy sx sy : Int) (old : Nat) (hdy : 57 ≤ |dy|)
    (hrot : 65000 * 65000 ≤ sx * sx + sy * sy) :
    diamond_ld sx sy dx dy =
        |dx * sx + dy * sy| * 48 + |dy * sx - dx * sy| * 12 - 576 * 65536 ∧
      2 * L = 6485084 ∧ diamond_ld sx sy dx dy > 2 * L ∧
      needle_pixel sdk sx sy dx dy old = (Branch.outside, none) := by
  have h := diamond_ld_far_row sx sy dx dy hdy hrot
  have hout : diamond_ld sx sy dx dy > 2 * L := by
    unfold L
    omega
  exact ⟨by simp [diamond_ld, A, B, r], by decide, hout,
    needle_pixel_outside sdk sx sy dx dy old hout⟩

/-- C15 at the rotation `(39321, 52428)` and the pixel offset `(3, 57)`. -/
theorem row_box_covers_witness :
    ((57 : Int) ≤ |57| ∧ (65000 : Int) * 65000 ≤ 39321 * 39321 + 52428 * 52428) ∧
      diamond_ld 39321 52428 3 57 > 2 * L ∧
      needle_pixel sample_sdk 39321 52428 3 57 0xC0 = (Branch.outside, none) :=
  have h := row_box_covers sample_sdk 3 57 39321 52428 0xC0 (by decide) (by decide)
  ⟨by decide, h.2.2.1, h.2.2.2⟩

/-- C16 (failing input): `ratio_mul(1, 1325)` is `-1` and `ratio_mul(3242542, 1325)` is
`65606`, both outside `[0, 65536]`.  In the rasterizer: for the rotation `(65535, 0)` the
pixel at `dx = 0`, `dy = -48` has `ld = -576`, takes the north fill path and is blended
with `alpha = ratio_mul(L + ld, RL) = 65594`; for the rotation `(65136, 7217)` the pixel
at `dx = 12`, `dy = 4` has `ld = L + 2`, takes the fading rim path and is blended with
`alpha = ratio_mul(ld - L, RL) = -1`. -/
theorem alpha_leaves_blend_domain :
    ((0 : Int) ≤ 1 ∧ (1 : Int) ≤ L ∧ (0 : Int) ≤ 3242542 ∧ (3242542 : Int) ≤ L) ∧
      ratio_mul 1 1325 = -1 ∧ ratio_mul 3242542 1325 = 65606 ∧
      diamond_ld 65535 0 0 (-48) = -576 ∧
      ratio_mul (L + diamond_ld 65535 0 0 (-48)) RL = 65594 ∧
      needle_pixel sample_sdk 65535 0 0 (-48) 0xC0 =
        (Branch.fill_n, some (blend 65594 0xC7 0xFF)) ∧
      diamond_ld 65136 7217 12 4 = 3242544 ∧
      ratio_mul (diamond_ld 65136 7217 12 4 - L) RL = -1 ∧
      needle_pixel sample_sdk 65136 7217 12 4 0xC0 =
        (Branch.rim_fade, some (blend (-1) 0xFF 0xC0)) := by
  decide

/-- C17: for every `d` with `0 <= d <= L` and `alpha = ratio_mul(d, RL)`, and for all
colours `c0`, `c1`, the byte `blend(alpha, c0, c1)`, computed with the wrapping `uint32_t`
arithmetic, has top bits `11`, fits in 8 bits, and each of its channels lies between the
channels of `c0` and `c1`.  In particular with `0xFF` (`GColorWhiteARGB8`) first and any
background `bg` second each channel lies between that of `bg` and 3, and with `0xC7`
(`GColorBlueMoonARGB8`) or `0xF8` (`GColorOrangeARGB8`) first and `0xFF` second each channel
lies between that of the arrow colour and 3. -/
theorem rasterizer_blend_safe (d : Int) (h0 : 0 ≤ d) (h1 : d ≤ L) (c0 c1 bg : Nat) :
    (blend (ratio_mul d RL) c0 c1 &&& 0xC0 = 0xC0 ∧ blend (ratio_mul d RL) c0 c1 < 256 ∧
      (min (chan_r c0) (chan_r c1) ≤ chan_r (blend (ratio_mul d RL) c0 c1) ∧
        chan_r (blend (ratio_mul d RL) c0 c1) ≤ max (chan_r c0) (chan_r c1)) ∧
      (min (chan_g c0) (chan_g c1) ≤ chan_g (blend (ratio_mul d RL) c0 c1) ∧
        chan_g (blend (ratio_mul d RL) c0 c1) ≤ max (chan_g c0) (chan_g c1)) ∧
      (min (chan_b c0) (chan_b c1) ≤ chan_b (blend (ratio_mul d RL) c0 c1) ∧
        chan_b (blend (ratio_mul d RL) c0 c1) ≤ max (chan_b c0) (chan_b c1))) ∧
    (blend (ratio_mul d RL) 0xFF bg &&& 0xC0 = 0xC0 ∧
      (chan_r bg ≤ chan_r (blend (ratio_mul d RL) 0xFF bg) ∧
        chan_r (blend (ratio_mul d RL) 0xFF bg) ≤ 3) ∧
      (chan_g bg ≤ chan_g (blend (ratio_mul d RL) 0xFF bg) ∧
        chan_g (blend (ratio_mul d RL) 0xFF bg) ≤ 3) ∧
      (chan_b bg ≤ chan_b (blend (ratio_mul d RL) 0xFF bg) ∧
        chan_b (blend (ratio_mul d RL) 0xFF bg) ≤ 3)) ∧
    (blend (ratio_mul d RL) 0xC7 0xFF &&& 0xC0 = 0xC0 ∧
      (chan_r 0xC7 ≤ chan_r (blend (ratio_mul d RL) 0xC7 0xFF) ∧
        chan_r (blend (ratio_mul d RL) 0xC7 0xFF) ≤ 3) ∧
      (chan_g 0xC7 ≤ chan_g (blend (ratio_mul d RL) 0xC7 0xFF) ∧
        chan_g (blend (ratio_mul d RL) 0xC7 0xFF) ≤ 3) ∧
      (chan_b 0xC7 ≤ chan_b (blend (ratio_mul d RL) 0xC7 0xFF) ∧
        chan_b (blend (ratio_mul d RL) 0xC7 0xFF) ≤ 3)) ∧
    (blend (ratio_mul d RL) 0xF8 0xFF &&& 0xC0 = 0xC0 ∧
      (chan_r 0xF8 ≤ chan_r (blend (ratio_mul d RL) 0xF8 0xFF) ∧
        chan_r (blend (ratio_mul d RL) 0xF8 0xFF) ≤ 3) ∧
      (chan_g 0xF8 ≤ chan_g (blend (ratio_mul d RL) 0xF8 0xFF) ∧
        chan_g (blend (ratio_mul d RL) 0xF8 0xFF) ≤ 3) ∧
      (chan_b 0xF8 ≤ chan_b (blend (ratio_mul d RL) 0xF8 0xFF) ∧
        chan_b (blend (ratio_mul d RL) 0xF8 0xFF) ≤ 3)) := by
  have hb := ratio_mul_RL_bounds d h0 h1
  have key := fun (x y : Nat) => blend_between (ratio_mul d RL) x y hb.1 hb.2
  have w1 : chan_r 0xFF = 3 ∧ chan_g 0xFF = 3 ∧ chan_b 0xFF = 3 := by decide
  have k1 := key 0xFF bg
  have k2 := key 0xC7 0xFF
  have k3 := key 0xF8 0xFF
  rw [w1.1, w1.2.1, w1.2.2] at k1 k2 k3
  have r1 := chan_r_le bg
  have g1 := chan_g_le bg
  have b1 := chan_b_le bg
  have r2 := chan_r_le 0xC7
  have g2 := chan_g_le 0xC7
  have b2 := chan_b_le 0xC7
  have r3 := chan_r_le 0xF8
  have g3 := chan_g_le 0xF8
  have b3 := chan_b_le 0xF8
  refine ⟨key c0 c1, ⟨k1.1, ⟨?_, ?_⟩, ⟨?_, ?_⟩, ⟨?_, ?_⟩⟩, ⟨k2.1, ⟨?_, ?_⟩, ⟨?_, ?_⟩, ⟨?_, ?_⟩⟩,
    ⟨k3.1, ⟨?_, ?_⟩, ⟨?_, ?_⟩, ⟨?_, ?_⟩⟩⟩ <;> omega

/-- C17 at `d = L` (where `alpha = 65606`) with the colours `0xC7`, `0xFF` and the
background `0xC0`. -/
theorem rasterizer_blend_safe_witness :
    ((0 : Int) ≤ 3242542 ∧ (3242542 : Int) ≤ L) ∧ ratio_mul 3242542 RL = 65606 ∧
      blend (ratio_mul 3242542 RL) 0xFF 0xC0 &&& 0xC0 = 0xC0 ∧
      chan_r 0xC0 ≤ chan_r (blend (ratio_mul 3242542 RL) 0xFF 0xC0) ∧
      chan_r (blend (ratio_mul 3242542 RL) 0xFF 0xC0) ≤ 3 :=
  have h := rasterizer_blend_safe 3242542 (by decide) (by decide) 0xC7 0xFF 0xC0
  ⟨by decide, by decide, h.2.1.1, h.2.1.2.1.1, h.2.1.2.1.2⟩

/-- C18 (counterexample): on the sample frame buffer (all bytes `0xC0`) with centre
`(72, 84)` and a calibrated heading of rotation `(65536, 0)`, the pixel at `dx = 0`,
`dy = 55` lies in the fading part of the rim; one pass leaves `0xD5` in it and a second
pass with the same heading leaves `0xEA`. -/
theorem redraw_twice_counterexample :
    sample_world.g_heading.compass_status = CompassStatus.Calibrated ∧
      (needle_rows sample_sdk 72 84 65536 0 sample_fb).data 139 72 = 0xD5 ∧
      (needle_rows sample_sdk 72 84 65536 0
        (needle_rows sample_sdk 72 84 65536 0 sample_fb)).data 139 72 = 0xEA ∧
      (needle_update_proc sample_sdk 72 84 sample_world).fb.data 139 72 = 0xD5 ∧
      (needle_update_proc sample_sdk 72 84
        (needle_update_proc sample_sdk 72 84 sample_world)).fb.data 139 72 = 0xEA := by
  have h1 : (needle_rows sample_sdk 72 84 65536 0 sample_fb).data 139 72 = 0xD5 := by
    rw [needle_rows_data, if_pos (by decide)]
    decide
  have h2 : (needle_rows sample_sdk 72 84 65536 0
      (needle_rows sample_sdk 72 84 65536 0 sample_fb)).data 139 72 = 0xEA := by
    rw [needle_rows_twice_data, if_pos (by decide)]
    decide
  have hv : sample_world.g_heading.compass_status ≠ CompassStatus.DataInvalid := by decide
  have hv2 : (needle_update_proc sample_sdk 72 84 sample_world).g_heading.compass_status ≠
      CompassStatus.DataInvalid := by
    rw [needle_update_proc_heading]
    exact hv
  have e1 : (needle_update_proc sample_sdk 72 84 sample_world).fb =
      needle_rows sample_sdk 72 84 65536 0 sample_fb :=
    needle_update_proc_fb sample_sdk 72 84 sample_world hv
  have e2 : (needle_update_proc sample_sdk 72 84
      (needle_update_proc sample_sdk 72 84 sample_world)).fb =
      needle_rows sample_sdk 72 84 65536 0
        (needle_rows sample_sdk 72 84 65536 0 sample_fb) := by
    rw [needle_update_proc_fb sample_sdk 72 84 _ hv2, e1]
    rfl
  exact ⟨rfl, h1, h2, by rw [e1]; exact h1, by rw [e2]; exact h2⟩

/-- C18 (amended): a second pass of the rasterization with the same rotation leaves every
pixel whose `ld` is not in `[L, 2 * L]` (outside the fading part of the rim) with the byte
the first pass left, after the two loops and after `needle_update_proc` with a status other
than `DataInvalid`; a visited pixel with `ld` in `[L, 2 * L]` gets
`blend(alpha, GColorWhiteARGB8, b)` where `b` is its byte after the first pass. -/
theorem redraw_idempotent_off_rim (sdk : Sdk) (cx cy sx sy : Int) (fb : GBitmap)
    (x y : Int) :
    (¬ (L ≤ diamond_ld sx sy (x - cx) (y - cy) ∧ diamond_ld sx sy (x - cx) (y - cy) ≤ 2 * L) →
      (needle_rows sdk cx cy sx sy (needle_rows sdk cx cy sx sy fb)).data y x =
          (needle_rows sdk cx cy sx sy fb).data y x ∧
        ∀ w : World, w.fb = fb →
          w.g_heading.compass_status ≠ CompassStatus.DataInvalid →
          sdk.cos_lookup w.g_heading.magnetic_heading = sx →
          sdk.sin_lookup w.g_heading.magnetic_heading = sy →
          (needle_update_proc sdk cx cy (needle_update_proc sdk cx cy w)).fb.data y x =
            (needle_update_proc sdk cx cy w).fb.data y x) ∧
    (L ≤ diamond_ld sx sy (x - cx) (y - cy) → diamond_ld sx sy (x - cx) (y - cy) ≤ 2 * L →
      (cy - 56 ≤ y ∧ y ≤ cy + 56) → (fb.min_x y ≤ x ∧ x ≤ fb.max_x y) →
      (needle_rows sdk cx cy sx sy (needle_rows sdk cx cy sx sy fb)).data y x =
        blend (ratio_mul (diamond_ld sx sy (x - cx) (y - cy) - L) RL) sdk.GColorWhiteARGB8
          ((needle_rows sdk cx cy sx sy fb).data y x)) := by
  constructor
  · intro h
    have hrows : (needle_rows sdk cx cy sx sy (needle_rows sdk cx cy sx sy fb)).data y x =
        (needle_rows sdk cx cy sx sy fb).data y x := by
      rw [needle_rows_twice_data, needle_rows_data, pixel_result_idem sdk sx sy _ _ _ h]
    refine ⟨hrows, ?_⟩
    intro w hw hv hc hs
    have hv2 : (needle_update_proc sdk cx cy w).g_heading.compass_status ≠
        CompassStatus.DataInvalid := by
      rw [needle_update_proc_heading]
      exact hv
    rw [needle_update_proc_fb sdk cx cy _ hv2, needle_update_proc_heading,
      needle_update_proc_fb sdk cx cy w hv, hc, hs, hw]
    exact hrows
  · intro h1 h2 hy hx
    rw [needle_rows_twice_data, needle_rows_data, if_pos ⟨hy, hx⟩, if_pos ⟨hy, hx⟩,
      pixel_result_rim_fade sdk sx sy _ _ _ h1 h2]

/-- C18 (amended) at the centre pixel of the sample frame buffer, rotation `(65536, 0)`. -/
theorem redraw_idempotent_off_rim_witness :
    ¬ (L ≤ diamond_ld 65536 0 (72 - 72) (84 - 84) ∧
        diamond_ld 65536 0 (72 - 72) (84 - 84) ≤ 2 * L) ∧
      (needle_rows sample_sdk 72 84 65536 0
        (needle_rows sample_sdk 72 84 65536 0 sample_fb)).data 84 72 =
          (needle_rows sample_sdk 72 84 65536 0 sample_fb).data 84 72 :=
  ⟨by decide,
    ((redraw_idempotent_off_rim sample_sdk 72 84 65536 0 sample_fb 72 84).1 (by decide)).1⟩

/-- C19: for `|dx| <= 90`, `|dy| <= 56` and `|sx|, |sy| <= 65536` the four products, `rx`,
`ry`, their absolute values, `abs(rx) * B`, `abs(ry) * A`, their sum, `r`, `L * 2`, `ld`,
`ld - L` and `L + ld` fit in a signed 32-bit integer, the wrapping `int32_t` computation of
`ld` gives the exact value, and every intermediate value of `ratio_mul(ld - L, RL)` on the
fading rim path (`L <= ld <= L * 2`) and of `ratio_mul(L + ld, RL)` on the fill paths
(`ld < 0`, `ld + L > 0`) fits as well. -/
theorem pixel_arith_no_overflow (dx dy sx sy : Int) (hdx : |dx| ≤ 90) (hdy : |dy| ≤ 56)
    (hsx : |sx| ≤ 65536) (hsy : |sy| ≤ 65536) :
    (fits32 (dx * sx) ∧ fits32 (dy * sy) ∧ fits32 (dy * sx) ∧ fits32 (dx * sy)) ∧
      (fits32 (dx * sx + dy * sy) ∧ fits32 (dy * sx - dx * sy)) ∧
      (fits32 |dx * sx + dy * sy| ∧ fits32 |dy * sx - dx * sy| ∧
        fits32 (|dx * sx + dy * sy| * B) ∧ fits32 (|dy * sx - dx * sy| * A) ∧
        fits32 (|dx * sx + dy * sy| * B + |dy * sx - dx * sy| * A)) ∧
      (fits32 r ∧ fits32 (L * 2) ∧ fits32 (diamond_ld sx sy dx dy) ∧
        fits32 (diamond_ld sx sy dx dy - L) ∧ fits32 (L + diamond_ld sx sy dx dy)) ∧
      diamond_ld32 sx sy dx dy = diamond_ld sx sy dx dy ∧
      (L ≤ diamond_ld sx sy dx dy → diamond_ld sx sy dx dy ≤ L * 2 →
        ratio_mul_fits (diamond_ld sx sy dx dy - L) RL) ∧
      (diamond_ld sx sy dx dy < 0 → diamond_ld sx sy dx dy + L > 0 →
        ratio_mul_fits (L + diamond_ld sx sy dx dy) RL) := by
  have hp := pixel_products dx dy sx sy hdx hdy hsx hsy
  have hr := rotated_bounds dx dy sx sy hdx hdy hsx hsy
  have p1 := abs_le.mp hp.1.1
  have p2 := abs_le.mp hp.1.2
  have p3 := abs_le.mp hp.2.1
  have p4 := abs_le.mp hp.2.2
  have q1 := abs_le.mp hr.1
  have q2 := abs_le.mp hr.2
  have n1 : 0 ≤ |dx * sx + dy * sy| := abs_nonneg _
  have n2 : 0 ≤ |dy * sx - dx * sy| := abs_nonneg _
  have hld : diamond_ld sx sy dx dy =
      |dx * sx + dy * sy| * 48 + |dy * sx - dx * sy| * 12 - 37748736 := by
    simp [diamond_ld, A, B, r]
  have hL : L = 3242542 := rfl
  refine ⟨⟨⟨by omega, by omega⟩, ⟨by omega, by omega⟩, ⟨by omega, by omega⟩,
      ⟨by omega, by omega⟩⟩,
    ⟨⟨by omega, by omega⟩, ⟨by omega, by omega⟩⟩,
    ⟨⟨by omega, by omega⟩, ⟨by omega, by omega⟩, ?_, ?_, ?_⟩,
    ⟨by decide, by decide, ⟨by omega, by omega⟩, ⟨by omega, by omega⟩, ⟨by omega, by omega⟩⟩,
    diamond_ld32_eq dx dy sx sy hdx hdy hsx hsy, ?_, ?_⟩
  · simp only [B]; exact ⟨by omega, by omega⟩
  · simp only [A]; exact ⟨by omega, by omega⟩
  · simp only [A, B]; exact ⟨by omega, by omega⟩
  · intro h1 h2
    exact ratio_mul_RL_fits _ (by omega) (by omega)
  · intro h1 h2
    exact ratio_mul_RL_fits _ (by omega) (by omega)

/-- C19 at the rotation `(65536, 0)` and the pixel offset `(0, 55)`, on the fading rim. -/
theorem pixel_arith_no_overflow_witness :
    ((|0| : Int) ≤ 90 ∧ (|55| : Int) ≤ 56 ∧ (|65536| : Int) ≤ 65536 ∧ (|0| : Int) ≤ 65536) ∧
      fits32 (diamond_ld 65536 0 0 55) ∧
      diamond_ld32 65536 0 0 55 = diamond_ld 65536 0 0 55 ∧
      ratio_mul_fits (diamond_ld 65536 0 0 55 - L) RL :=
  have h := pixel_arith_no_overflow 0 55 65536 0 (by decide) (by decide) (by decide)
    (by decide)
  ⟨by decide, h.2.2.2.1.2.2.1, h.2.2.2.2.1, h.2.2.2.2.2.1 (by decide) (by decide)⟩

/-- C20: with a positive `TRIG_MAX_RATIO`, for every visited pixel that is interior
(`ld < 0`), at least `2 * TRIG_MAX_RATIO` away from the seam and at least `L` inside the
edge (`ld + L <= 0`): when `ry < 0` the loop body takes the north fill path and the pixel
holds exactly `ARROW_COLOR_N` after the two loops, when `ry > 0` it takes the south fill
path and the pixel holds exactly `ARROW_COLOR_S`, and exactly one of `ry < 0`, `ry > 0`
holds; the same bytes are in the frame buffer after `needle_update_proc` with a status
other than `DataInvalid`. -/
theorem two_tone_rule (sdk : Sdk) (hT : 0 < sdk.TRIG_MAX_RATIO) (cx cy sx sy : Int)
    (fb : GBitmap) (x y : Int) (hy : cy - 56 ≤ y ∧ y ≤ cy + 56)
    (hx : fb.min_x y ≤ x ∧ x ≤ fb.max_x y)
    (hld : diamond_ld sx sy (x - cx) (y - cy) < 0)
    (hseam : 2 * sdk.TRIG_MAX_RATIO ≤ |(y - cy) * sx - (x - cx) * sy|)
    (hin : diamond_ld sx sy (x - cx) (y - cy) + L ≤ 0) :
    ((y - cy) * sx - (x - cx) * sy < 0 →
        needle_pixel sdk sx sy (x - cx) (y - cy) (fb.data y x) =
          (Branch.fill_n, some (ARROW_COLOR_N sdk)) ∧
        (needle_rows sdk cx cy sx sy fb).data y x = ARROW_COLOR_N sdk) ∧
      ((y - cy) * sx - (x - cx) * sy > 0 →
        needle_pixel sdk sx sy (x - cx) (y - cy) (fb.data y x) =
          (Branch.fill_s, some (ARROW_COLOR_S sdk)) ∧
        (needle_rows sdk cx cy sx sy fb).data y x = ARROW_COLOR_S sdk) ∧
      (((y - cy) * sx - (x - cx) * sy < 0 ∨ (y - cy) * sx - (x - cx) * sy > 0) ∧
        ¬ ((y - cy) * sx - (x - cx) * sy < 0 ∧ (y - cy) * sx - (x - cx) * sy > 0)) ∧
      (∀ w : World, w.fb = fb →
        w.g_heading.compass_status ≠ CompassStatus.DataInvalid →
        sdk.cos_lookup w.g_heading.magnetic_heading = sx →
        sdk.sin_lookup w.g_heading.magnetic_heading = sy →
        (needle_update_proc sdk cx cy w).fb.data y x =
          if (y - cy) * sx - (x - cx) * sy < 0 then ARROW_COLOR_N sdk
          else ARROW_COLOR_S sdk) := by
  have hn : (y - cy) * sx - (x - cx) * sy < 0 →
      needle_pixel sdk sx sy (x - cx) (y - cy) (fb.data y x) =
          (Branch.fill_n, some (ARROW_COLOR_N sdk)) ∧
        (needle_rows sdk cx cy sx sy fb).data y x = ARROW_COLOR_N sdk := by
    intro hry
    have hpix := needle_pixel_deep_n sdk sx sy _ _ (fb.data y x) hld hseam hin hry
    refine ⟨hpix, ?_⟩
    rw [needle_rows_visited sdk cx cy sx sy fb y x hy hx]
    unfold pixel_result
    rw [hpix]
    rfl
  have hs : (y - cy) * sx - (x - cx) * sy > 0 →
      needle_pixel sdk sx sy (x - cx) (y - cy) (fb.data y x) =
          (Branch.fill_s, some (ARROW_COLOR_S sdk)) ∧
        (needle_rows sdk cx cy sx sy fb).data y x = ARROW_COLOR_S sdk := by
    intro hry
    have hpix := needle_pixel_deep_s sdk sx sy _ _ (fb.data y x) hld hseam hin hry
    refine ⟨hpix, ?_⟩
    rw [needle_rows_visited sdk cx cy sx sy fb y x hy hx]
    unfold pixel_result
    rw [hpix]
    rfl
  have hone := off_seam_ne_zero sdk.TRIG_MAX_RATIO _ hT hseam
  refine ⟨hn, hs, ⟨hone, by omega⟩, ?_⟩
  intro w hw hv hc hsn
  rw [needle_update_proc_fb sdk cx cy w hv, hc, hsn, hw]
  rcases hone with h1 | h1
  · rw [if_pos h1]
    exact (hn h1).2
  · rw [if_neg (by omega)]
    exact (hs h1).2

/-- C20 at the rotation `(65536, 0)` and the pixel `(72, 54)` of the sample frame buffer
with centre `(72, 84)`, which is `dx = 0`, `dy = -30`. -/
theorem two_tone_rule_witness :
    (0 < sample_sdk.TRIG_MAX_RATIO ∧ diamond_ld 65536 0 (72 - 72) (54 - 84) < 0 ∧
        2 * sample_sdk.TRIG_MAX_RATIO ≤ |(54 - 84) * 65536 - (72 - 72) * 0| ∧
        diamond_ld 65536 0 (72 - 72) (54 - 84) + L ≤ 0) ∧
      (needle_rows sample_sdk 72 84 65536 0 sample_fb).data 54 72 = 0xC7 :=
  ⟨by decide,
    ((two_tone_rule sample_sdk (by decide) 72 84 65536 0 sample_fb 72 54 (by decide)
      (by decide) (by decide) (by decide) (by decide)).1 (by decide)).2⟩

end Compass
